import Mathlib

/-
  Verification development for the Ai-Trader data pipeline.

  Shallow embedding of:
  - src/src/process_data.py           (process_data)
  - src/src/train/split_data.py       (time_series_split)
  - src/src/verify_pipeline.py        (validate_data_pipeline)
  - src/src/data_pipeline/process_data.py is referenced by the repository's
    tests but absent from the sources; its incremental behaviour is modelled
    from the spec where a claim needs it.

  Modelling conventions:
  - pandas NaN is modelled as `none` in `Option ℚ`; floating point numbers are
    modelled as exact rationals.
  - pandas/NumPy infinities (division by zero, log of zero) are modelled as
    undefined cells (`none`); all concrete inputs used below have positive
    prices, where the two semantics agree.
  - `pct_change` is modelled without the deprecated NaN pad-filling
    (`fill_method=None` semantics); on gap-free price series, which all
    concrete inputs below are, this agrees with every pandas version.
  - the transcendental `np.log` is not computable over ℚ; it is modelled by a
    computable strictly-monotone stand-in (see `logModel`).  No theorem below
    depends on the values of the logarithm, only on which arguments it
    receives and on where it is defined.
-/

namespace AiTrader

-- Core marks the primitive ℚ operations `[irreducible]`, which blocks the
-- elaborator-side evaluation `decide` needs on concrete inputs; restoring the
-- default reducibility changes nothing semantically.
attribute [local semireducible] Rat.add Rat.sub Rat.mul Rat.inv

/-- A numeric cell of a DataFrame: `none` models pandas NaN (and, as a
documented modelling choice, also ±inf). -/
abbrev Cell := Option ℚ

/-- One row of the raw CSV read by `process_data`
(columns `Date, Ticker, Open, High, Low, Close, Volume`).
The optional `Adj Close` column of the source's normalization list is absent
from this fixed schema, matching the repository's own test data. -/
structure RawRow where
  ticker : String
  date : ℤ
  Open : Cell
  High : Cell
  Low : Cell
  Close : Cell
  Volume : Cell
deriving DecidableEq

/-- A row of one ticker's group after `groupby('Ticker')` and
`set_index('Date')`: the `Date` index plus the five raw numeric columns. -/
structure Row where
  date : ℤ
  Open : Cell
  High : Cell
  Low : Cell
  Close : Cell
  Volume : Cell
deriving DecidableEq

/-- A group row after feature engineering added `SMA_20`, `Lag_Return_1` and
`Log_Return`. -/
structure FeatRow where
  date : ℤ
  Open : Cell
  High : Cell
  Low : Cell
  Close : Cell
  Volume : Cell
  SMA_20 : Cell
  Lag_Return_1 : Cell
  Log_Return : Cell
deriving DecidableEq

/-- A group row after `dropna`: every column is defined. -/
structure CleanRow where
  date : ℤ
  Open : ℚ
  High : ℚ
  Low : ℚ
  Close : ℚ
  Volume : ℚ
  SMA_20 : ℚ
  Lag_Return_1 : ℚ
  Log_Return : ℚ
deriving DecidableEq

/-- A labelled row: the columns of `CleanRow` plus the integer target `y`
produced by `(Close.shift(-1) > Close).astype(int)`. -/
structure LRow where
  date : ℤ
  Open : ℚ
  High : ℚ
  Low : ℚ
  Close : ℚ
  Volume : ℚ
  SMA_20 : ℚ
  Lag_Return_1 : ℚ
  Log_Return : ℚ
  y : ℤ
deriving DecidableEq

/-- Computable stand-in for the transcendental `np.log` on ℚ.  It shares with
the real logarithm exactly the properties the development uses: it is defined
precisely on positive arguments (log of zero or of a negative number is an
undefined cell).  Its numeric values are irrelevant to every theorem below. -/
def logModel (x : ℚ) : Cell :=
  if 0 < x then some (x - 1) else none

/-- NaN-propagating division, `none` on a zero divisor (pandas yields ±inf or
NaN there; both are modelled as undefined cells). -/
def cdiv (a b : Cell) : Cell :=
  match a, b with
  | some x, some y => if y = 0 then none else some (x / y)
  | _, _ => none

/-- `pct_change` step: relative change from `prev` to `cur`. -/
def pctChange (prev cur : Cell) : Cell :=
  match prev, cur with
  | some p, some c => if p = 0 then none else some ((c - p) / p)
  | _, _ => none

/-- The 20-observation window ending at the current row (reversed: current
close first, then the 19 previous closes). -/
def smaWin (hist : List Row) (r : Row) : List Cell :=
  r.Close :: (hist.take 19).map Row.Close

/-- `Close.rolling(window=20).mean()` at the current row, given the reversed
list of all previous rows of the group: defined iff the window holds 20
observed closes. -/
def smaAt (hist : List Row) (r : Row) : Cell :=
  if 19 ≤ hist.length then
    if (smaWin hist r).all Option.isSome then
      some (((smaWin hist r).map (fun c => c.getD 0)).sum / 20)
    else none
  else none

/-- `Close.pct_change(1).shift(1)` at the current row: the previous row's
percent change, given the reversed list of previous rows. -/
def lagReturnAt (hist : List Row) : Cell :=
  match hist with
  | p1 :: p2 :: _ => pctChange p2.Close p1.Close
  | _ => none

/-- `np.log(Close / Close.shift(1))` at the current row. -/
def logReturnAt (hist : List Row) (r : Row) : Cell :=
  match hist with
  | p1 :: _ => (cdiv r.Close p1.Close).bind logModel
  | [] => none

/-- Feature engineering for one row, given the reversed list of the group's
previous rows. -/
def featRowAt (hist : List Row) (r : Row) : FeatRow :=
  { date := r.date
    Open := r.Open
    High := r.High
    Low := r.Low
    Close := r.Close
    Volume := r.Volume
    SMA_20 := smaAt hist r
    Lag_Return_1 := lagReturnAt hist
    Log_Return := logReturnAt hist r }

/-- Feature engineering over the group, threading the reversed prefix of
already-seen rows (pandas computes these columns positionally over the
group's row order). -/
def featureEngineerGo (hist : List Row) : List Row → List FeatRow
  | [] => []
  | r :: rest => featRowAt hist r :: featureEngineerGo (r :: hist) rest

/-- The feature-engineering stage of `process_data` for one ticker group. -/
def featureEngineer (g : List Row) : List FeatRow :=
  featureEngineerGo [] g

/-- Forward-fill state: the last observed value of each numeric column. -/
structure FState where
  Open : Cell
  High : Cell
  Low : Cell
  Close : Cell
  Volume : Cell
  SMA_20 : Cell
  Lag_Return_1 : Cell
  Log_Return : Cell
deriving DecidableEq

/-- The empty forward-fill state (nothing observed yet). -/
def fstate0 : FState :=
  ⟨none, none, none, none, none, none, none, none⟩

/-- Keep a defined cell, otherwise fall back to the carried state. -/
def cellOr (a b : Cell) : Cell :=
  match a with
  | some x => some x
  | none => b

/-- Forward-fill one row from the carried state (`DataFrame.ffill`). -/
def ffillRow (st : FState) (r : FeatRow) : FeatRow :=
  { date := r.date
    Open := cellOr r.Open st.Open
    High := cellOr r.High st.High
    Low := cellOr r.Low st.Low
    Close := cellOr r.Close st.Close
    Volume := cellOr r.Volume st.Volume
    SMA_20 := cellOr r.SMA_20 st.SMA_20
    Lag_Return_1 := cellOr r.Lag_Return_1 st.Lag_Return_1
    Log_Return := cellOr r.Log_Return st.Log_Return }

/-- The forward-fill state carried past a (already filled) row. -/
def stateOf (r : FeatRow) : FState :=
  ⟨r.Open, r.High, r.Low, r.Close, r.Volume, r.SMA_20, r.Lag_Return_1,
    r.Log_Return⟩

/-- `DataFrame.ffill` down the group, threading the per-column last observed
values.  A filled row's own cells are exactly the updated state. -/
def ffillGo (st : FState) : List FeatRow → List FeatRow
  | [] => []
  | r :: rest =>
    let r2 := ffillRow st r
    r2 :: ffillGo (stateOf r2) rest

/-- The forward-fill stage of `process_data` for one ticker group. -/
def ffill (l : List FeatRow) : List FeatRow :=
  ffillGo fstate0 l

/-- A row survives `dropna` iff every column is defined. -/
def toClean (r : FeatRow) : Option CleanRow :=
  match r.Open, r.High, r.Low, r.Close, r.Volume, r.SMA_20, r.Lag_Return_1,
      r.Log_Return with
  | some o, some h, some lo, some c, some v, some s, some la, some lg =>
    some ⟨r.date, o, h, lo, c, v, s, la, lg⟩
  | _, _, _, _, _, _, _, _ => none

/-- The first `dropna` of `process_data` (after forward-fill). -/
def dropna (l : List FeatRow) : List CleanRow :=
  l.filterMap toClean

/-- The cleaning pipeline of one ticker group: feature engineering, then
forward-fill, then dropna (source lines 50-58). -/
def cleaned (g : List Row) : List CleanRow :=
  dropna (ffill (featureEngineer g))

/-- Attach a label value to a clean row. -/
def mkL (r : CleanRow) (yv : ℤ) : LRow :=
  ⟨r.date, r.Open, r.High, r.Low, r.Close, r.Volume, r.SMA_20,
    r.Lag_Return_1, r.Log_Return, yv⟩

/-- The label stage `(Close.shift(-1) > Close).astype(int)`: on the last row
`Close.shift(-1)` is NaN, the comparison is False and `astype(int)` yields 0.
The source's second `dropna` right after this assignment is the identity (no
column can be NaN at this point and `y` is an int column), which the types
here make explicit. -/
def addLabel : List CleanRow → List LRow
  | [] => []
  | [r] => [mkL r 0]
  | r :: s :: rest =>
    mkL r (if r.Close < s.Close then 1 else 0) :: addLabel (s :: rest)

/-- The normalized numeric columns (`columns_to_normalize` restricted to the
columns present in the fixed schema; `Adj Close` is absent from it). -/
inductive Col where
  | Open | High | Low | Close | Volume | SMA_20 | Lag_Return_1 | Log_Return
deriving DecidableEq

/-- `valid_columns_to_normalize` for the fixed schema, in source order. -/
def Col.all : List Col :=
  [.Open, .High, .Low, .Close, .Volume, .SMA_20, .Lag_Return_1, .Log_Return]

/-- Read one normalized column of a labelled row. -/
def LRow.get (r : LRow) : Col → ℚ
  | .Open => r.Open
  | .High => r.High
  | .Low => r.Low
  | .Close => r.Close
  | .Volume => r.Volume
  | .SMA_20 => r.SMA_20
  | .Lag_Return_1 => r.Lag_Return_1
  | .Log_Return => r.Log_Return

/-- Minimum of a column's values (0 on an empty column, which never occurs on
the paths below). -/
def listMin : List ℚ → ℚ
  | [] => 0
  | x :: xs => xs.foldl min x

/-- Maximum of a column's values. -/
def listMax : List ℚ → ℚ
  | [] => 0
  | x :: xs => xs.foldl max x

/-- `MinMaxScaler` transform of one value given fitted column min/max:
`(x - min) / (max - min)`, with sklearn's `_handle_zeros_in_scale` replacing a
zero range by 1 (so a degenerate fitted column maps its own values to 0). -/
def scaleVal (mn mx x : ℚ) : ℚ :=
  (x - mn) / (if mx = mn then 1 else mx - mn)

/-- Fitted per-column minima and maxima of one ticker's `MinMaxScaler`
(`NormalizationState` of the spec). -/
structure NormState where
  Open : ℚ × ℚ
  High : ℚ × ℚ
  Low : ℚ × ℚ
  Close : ℚ × ℚ
  Volume : ℚ × ℚ
  SMA_20 : ℚ × ℚ
  Lag_Return_1 : ℚ × ℚ
  Log_Return : ℚ × ℚ
deriving DecidableEq

/-- Read the fitted (min, max) pair of one column. -/
def NormState.get (st : NormState) : Col → ℚ × ℚ
  | .Open => st.Open
  | .High => st.High
  | .Low => st.Low
  | .Close => st.Close
  | .Volume => st.Volume
  | .SMA_20 => st.SMA_20
  | .Lag_Return_1 => st.Lag_Return_1
  | .Log_Return => st.Log_Return

/-- Minimum of one column over the group. -/
def colMin (rows : List LRow) (c : Col) : ℚ :=
  listMin (rows.map (fun r => r.get c))

/-- Maximum of one column over the group. -/
def colMax (rows : List LRow) (c : Col) : ℚ :=
  listMax (rows.map (fun r => r.get c))

/-- `MinMaxScaler.fit` over one ticker's labelled rows. -/
def fitNorm (rows : List LRow) : NormState :=
  { Open := (colMin rows .Open, colMax rows .Open)
    High := (colMin rows .High, colMax rows .High)
    Low := (colMin rows .Low, colMax rows .Low)
    Close := (colMin rows .Close, colMax rows .Close)
    Volume := (colMin rows .Volume, colMax rows .Volume)
    SMA_20 := (colMin rows .SMA_20, colMax rows .SMA_20)
    Lag_Return_1 := (colMin rows .Lag_Return_1, colMax rows .Lag_Return_1)
    Log_Return := (colMin rows .Log_Return, colMax rows .Log_Return) }

/-- Transform one row with a fitted scaler. -/
def applyNormRow (st : NormState) (r : LRow) : LRow :=
  { date := r.date
    Open := scaleVal (st.Open).1 (st.Open).2 r.Open
    High := scaleVal (st.High).1 (st.High).2 r.High
    Low := scaleVal (st.Low).1 (st.Low).2 r.Low
    Close := scaleVal (st.Close).1 (st.Close).2 r.Close
    Volume := scaleVal (st.Volume).1 (st.Volume).2 r.Volume
    SMA_20 := scaleVal (st.SMA_20).1 (st.SMA_20).2 r.SMA_20
    Lag_Return_1 :=
      scaleVal (st.Lag_Return_1).1 (st.Lag_Return_1).2 r.Lag_Return_1
    Log_Return := scaleVal (st.Log_Return).1 (st.Log_Return).2 r.Log_Return
    y := r.y }

/-- `MinMaxScaler.transform` over the group. -/
def applyNorm (st : NormState) (rows : List LRow) : List LRow :=
  rows.map (applyNormRow st)

/-- `scaler.fit_transform` over one ticker's labelled rows (source line 82). -/
def normalizeGroup (rows : List LRow) : List LRow :=
  applyNorm (fitNorm rows) rows

/-- The whole per-ticker body of `process_data`'s group loop: cleaning, the
empty-group skip (`continue`, modelled as `none`), labelling and
normalization.  The source's `valid_columns_to_normalize` emptiness `continue`
cannot fire under the fixed schema. -/
def processGroup (g : List Row) : Option (List LRow) :=
  let cl := cleaned g
  if cl = [] then none
  else some (normalizeGroup (addLabel cl))

/-- The raw CSV as read by `pd.read_csv`: its rows, and whether the `Ticker`
column is present. -/
structure RawTable where
  hasTicker : Bool
  rows : List RawRow
deriving DecidableEq

/-- Drop the ticker from a raw row once the group is formed. -/
def RawRow.toRow (r : RawRow) : Row :=
  ⟨r.date, r.Open, r.High, r.Low, r.Close, r.Volume⟩

/-- One ticker's group: the raw rows with that ticker, in file order
(`groupby` preserves the original order inside each group and does not sort by
date). -/
def rowsOf (rs : List RawRow) (t : String) : List Row :=
  (rs.filter (fun r => r.ticker = t)).map RawRow.toRow

/-- The group keys of `data.groupby('Ticker')`: the distinct tickers, in
sorted order (`groupby` sorts its keys). -/
def tickersOf (rs : List RawRow) : List String :=
  List.insertionSort (fun a b => a ≤ b) (rs.map RawRow.ticker).dedup

/-- The outcome of a `process_data` call.  The source signals the first four
cases by printing a message and returning `None`; they are distinguished here
so that which message is reported is part of the model. -/
inductive ProcResult where
  | rawMissing
  | alreadyProcessed
  | noTickerColumn
  | noData
  | ok : List (String × LRow) → ProcResult
deriving DecidableEq

/-- The in-memory part of `process_data`: group by ticker, process each group,
skip groups that clean to empty, and concatenate the survivors in sorted
ticker order (`pd.concat(all_processed_data)`).  Each output row keeps its
group's ticker. -/
def process_data_core (tbl : RawTable) : ProcResult :=
  if tbl.hasTicker = false then .noTickerColumn
  else
    let groups := (tickersOf tbl.rows).filterMap fun t =>
      (processGroup (rowsOf tbl.rows t)).map fun out =>
        out.map fun r => (t, r)
    if groups = [] then .noData
    else .ok groups.flatten

/-- The filesystem as `process_data` sees it: whether the raw and processed
CSV files exist, the raw table, and the persisted processed rows. -/
structure FS where
  rawExists : Bool
  raw : RawTable
  processedExists : Bool
  processed : List (String × LRow)
deriving DecidableEq

/-- The full `process_data(raw_data_path, processed_data_path)` call: the two
existence checks (source lines 27-32), then the in-memory pipeline, writing
the processed CSV only on success. -/
def process_data (fs : FS) : FS × ProcResult :=
  if fs.rawExists = false then (fs, .rawMissing)
  else if fs.processedExists = true then (fs, .alreadyProcessed)
  else
    match process_data_core fs.raw with
    | .ok rows => ({ fs with processedExists := true, processed := rows }, .ok rows)
    | r => (fs, r)

/-- The processed rows reported for one instrument by a `process_data` result
(empty when the call returned `None`). -/
def outFor (res : ProcResult) (t : String) : List LRow :=
  match res with
  | .ok rows => (rows.filter (fun p => p.1 = t)).map Prod.snd
  | _ => []

/-- `df.sort_index()` of `time_series_split`: sort the processed rows by their
`Date` index.  (Which order ties between equal dates land in is irrelevant to
every theorem below; insertion sort fixes one.) -/
def sortByDate (l : List (String × LRow)) : List (String × LRow) :=
  List.insertionSort (fun a b => a.2.date ≤ b.2.date) l

/-- `time_series_split` (src/src/train/split_data.py): sort by date, then take
the last fold of `TimeSeriesSplit(n_splits=4)`, i.e. with `n` rows and
`test_size = n / 5` the first `n - n / 5` rows train and the last `n / 5` rows
test.  sklearn raises when `n < n_splits + 1 = 5`, modelled as `none`. -/
def time_series_split (l : List (String × LRow)) :
    Option (List (String × LRow) × List (String × LRow)) :=
  let df := sortByDate l
  let n := df.length
  let tsz := n / 5
  if n < 5 then none
  else some (df.take (n - tsz), df.drop (n - tsz))

/-- A row of the DataFrame handed to `validate_data_pipeline`, reduced to the
feature column `Close` and the target column `y` (the validator's control
flow, in particular every point where it can raise, is schema-generic; one
feature column exercises all of it). -/
structure VRow where
  Close : Cell
  y : Cell
deriving DecidableEq

/-- The validator's input DataFrame: whether the target column is present at
all, and the rows.  When `hasTarget = false`, the `y` cells are meaningless
(the column simply does not exist). -/
structure VDF where
  hasTarget : Bool
  rows : List VRow
deriving DecidableEq

/-- Whether a row contains a NaN in any existing column. -/
def vrowNaN (hasT : Bool) (r : VRow) : Bool :=
  r.Close.isNone || (hasT && r.y.isNone)

/-- `df_clean`: replace infinities by NaN (infinities are already modelled as
undefined cells) and drop every row containing a NaN. -/
def vclean (df : VDF) : List VRow :=
  df.rows.filter (fun r => !vrowNaN df.hasTarget r)

/-- Validator finding recorded by the NaN scan. -/
def msgNaN : String := "NaNs found in columns."

/-- Validator finding recorded when the target column is absent. -/
def msgTargetMissing : String := "Target column not in DataFrame."

/-- Validator finding recorded on class imbalance beyond 0.4. -/
def msgImbalance : String := "Significant class imbalance detected."

/-- Validator finding recorded on train/validation fold overlap. -/
def msgOverlap : String := "TimeSeriesSplit validation failed."

/-- Validator finding recorded when scaled validation data leaves [0,1]. -/
def msgScaledRange : String := "Scaled validation data outside range."

/-- The uncaught Python `KeyError` raised by `y = df_clean[target_col]` when
the target column is missing. -/
def msgKeyError : String := "KeyError"

/-- The uncaught sklearn `ValueError` raised by `TimeSeriesSplit(5)` on fewer
than 6 samples. -/
def msgValueError : String := "ValueError"

/-- Number of clean rows whose target equals `v`. -/
def countY (l : List VRow) (v : ℚ) : ℕ :=
  (l.filter (fun r => r.y = some v)).length

/-- `abs(balance.get(0, 0) - balance.get(1, 0))` of the class-balance check
(0 on an empty value count). -/
def balanceGap (l : List VRow) : ℚ :=
  if l.length = 0 then 0
  else |((countY l 0 : ℚ) / l.length) - ((countY l 1 : ℚ) / l.length)|

/-- `validate_data_pipeline` (src/src/verify_pipeline.py).  Findings are
collected into the returned report; `Except.error` models an uncaught Python
exception escaping the function.  Step by step:
step 1 records the NaN finding and cleans the frame; step 2's leakage check is
skipped (no `Leaky_SMA_5` column in this schema); step 3 records either the
class-imbalance finding or the missing-target finding; step 4 evaluates
`y = df_clean[target_col]`, which raises `KeyError` when the target column is
absent, then iterates `TimeSeriesSplit(n_splits=5)`, which raises `ValueError`
on fewer than 6 clean rows, and records the fold-overlap finding; step 5
re-fits a `MinMaxScaler` on the last fold's training slice, transforms the
validation slice and records the out-of-range finding. -/
def validate_data_pipeline (df : VDF) : Except String (List String) :=
  let clean := vclean df
  let issues1 := if df.rows.any (vrowNaN df.hasTarget) then [msgNaN] else []
  let issues3 :=
    if df.hasTarget then
      if balanceGap clean > 2 / 5 then [msgImbalance] else []
    else [msgTargetMissing]
  if df.hasTarget = false then .error msgKeyError
  else
    let n := clean.length
    if n < 6 then .error msgValueError
    else
      let tsz := n / 6
      let overlap := (List.range 5).any fun i =>
        let s : ℤ := (n : ℤ) - ((5 : ℤ) - (i : ℤ)) * (tsz : ℤ)
        decide (s - 1 ≥ s)
      let issues4 := if overlap then [msgOverlap] else []
      let closes := clean.map (fun r => r.Close.getD 0)
      let mn := listMin (closes.take (n - tsz))
      let mx := listMax (closes.take (n - tsz))
      let scaled := (closes.drop (n - tsz)).map (scaleVal mn mx)
      let issues5 :=
        if listMin scaled < -(1 / 10) ∨ 11 / 10 < listMax scaled then
          [msgScaledRange]
        else []
      .ok (issues1 ++ issues3 ++ issues4 ++ issues5)

/-
  Incremental reprocessing.  The repository's tests
  (src/src/test_pipeline/test_data_processing.py) exercise an incremental
  `src.data_pipeline.process_data` with a persisted per-ticker scaler, but
  that module is absent from the sources; the controller below is modelled
  from the spec (§4.5 Per-Entity Normalizer, §4.6 Incremental Merge
  Controller).
-/

/-- Modelled from the spec: the persisted state of the incremental pipeline —
the append-only processed dataset and one persisted `NormalizationState` per
instrument (src/data_pipeline/process_data.py is missing from the sources). -/
structure IncState where
  processed : List (String × LRow)
  scalers : List (String × NormState)
deriving DecidableEq

/-- Modelled from the spec: look up an instrument's persisted
NormalizationState. -/
def lookupScaler (ss : List (String × NormState)) (t : String) :
    Option NormState :=
  (ss.find? (fun p => p.1 = t)).map Prod.snd

/-- The (instrument, timestamp) keys already persisted for one instrument. -/
def datesFor (pr : List (String × LRow)) (t : String) : List ℤ :=
  (pr.filter (fun p => p.1 = t)).map (fun p => p.2.date)

/-- Modelled from the spec: one instrument's incremental step.  Derived
columns are computed over the instrument's series (the spec's
trailing-history window is computation-equivalent by the causality of the
features), the persisted scaler is reused when present and fitted and
persisted on a fresh instrument, and only rows whose (instrument, timestamp)
key is not already persisted are retained. -/
def incGroup (existing : List ℤ) (ns : Option NormState) (g : List Row) :
    Option (List LRow × NormState) :=
  let cl := cleaned g
  if cl = [] then none
  else
    let lab := addLabel cl
    let st := match ns with
      | some s => s
      | none => fitNorm lab
    some ((applyNorm st lab).filter (fun r => !existing.contains r.date), st)

/-- Modelled from the spec: one invocation of the incremental pipeline
(FullRun when nothing is persisted, IncrementalRun otherwise, per
instrument).  Returns the updated persisted state and the appended delta
rows; previously persisted rows are appended to, never rewritten. -/
def process_data_incremental (st : IncState) (tbl : RawTable) :
    IncState × List (String × LRow) :=
  let deltas := (tickersOf tbl.rows).filterMap fun t =>
    (incGroup (datesFor st.processed t) (lookupScaler st.scalers t)
        (rowsOf tbl.rows t)).map
      fun p => (t, p)
  let appended := deltas.flatMap fun p => p.2.1.map fun r => (p.1, r)
  let newScalers := deltas.filterMap fun p =>
    if lookupScaler st.scalers p.1 = none then some (p.1, p.2.2) else none
  (⟨st.processed ++ appended, st.scalers ++ newScalers⟩, appended)

/-- Modelled from the spec: the first (full) run of the incremental pipeline
on a raw table, starting from empty persisted state. -/
def incRun1 (raw : List RawRow) : IncState × List (String × LRow) :=
  process_data_incremental ⟨[], []⟩ ⟨true, raw⟩

/-- Modelled from the spec: the second (incremental) run after the raw input
grew by `extra`. -/
def incRun2 (raw extra : List RawRow) : IncState × List (String × LRow) :=
  process_data_incremental (incRun1 raw).1 ⟨true, raw ++ extra⟩

/-
  Helper projections and concrete inputs used by the theorems below.
-/

/-- Forget the label of a labelled row (the non-`y` columns). -/
def stripY (r : LRow) : CleanRow :=
  ⟨r.date, r.Open, r.High, r.Low, r.Close, r.Volume, r.SMA_20,
    r.Lag_Return_1, r.Log_Return⟩

/-- The rows a (possibly skipped) group contributes. -/
def pgRows (g : List Row) : List LRow :=
  (processGroup g).getD []

/-- The rows one instrument's group contributes to a full run. -/
def groupOut (rs : List RawRow) (t : String) : List LRow :=
  (processGroup (rowsOf rs t)).getD []

/-- A row passes this check iff its five raw columns are observed and its
close is positive (every real quote is); on such groups the two division
guards and the logarithm domain guard of the feature engine never fire. -/
def validRowB (r : Row) : Bool :=
  r.Open.isSome && r.High.isSome && r.Low.isSome && r.Volume.isSome &&
    (match r.Close with
      | some c => decide (0 < c)
      | none => false)

/-- Definedness profile of a feature-engineered row sitting at global
position `n` of a gap-free positive-close group: the raw columns are always
observed, the log return from position 1 on, the lagged return from position
2 on, and the 20-day mean from position 19 on. -/
def featValid (n : ℕ) (r : FeatRow) : Prop :=
  r.Open.isSome = true ∧ r.High.isSome = true ∧ r.Low.isSome = true ∧
  r.Close.isSome = true ∧ r.Volume.isSome = true ∧
  (r.SMA_20.isSome = true ↔ 19 ≤ n) ∧
  (r.Lag_Return_1.isSome = true ↔ 2 ≤ n) ∧
  (r.Log_Return.isSome = true ↔ 1 ≤ n)

/-- Every row of the list has the definedness profile of its position,
positions counted from `n`. -/
def FeatGraded : ℕ → List FeatRow → Prop
  | _, [] => True
  | n, r :: rest => featValid n r ∧ FeatGraded (n + 1) rest

/-- Definedness profile of the forward-fill state after `p` rows of a
gap-free positive-close group. -/
def stValid (p : ℕ) (st : FState) : Prop :=
  (st.Open.isSome = true ↔ 1 ≤ p) ∧ (st.High.isSome = true ↔ 1 ≤ p) ∧
  (st.Low.isSome = true ↔ 1 ≤ p) ∧ (st.Close.isSome = true ↔ 1 ≤ p) ∧
  (st.Volume.isSome = true ↔ 1 ≤ p) ∧
  (st.SMA_20.isSome = true ↔ 20 ≤ p) ∧
  (st.Lag_Return_1.isSome = true ↔ 3 ≤ p) ∧
  (st.Log_Return.isSome = true ↔ 2 ≤ p)

/-- Ticker used by the concrete inputs. -/
def tickA : String := "A"

/-- Second ticker used by the concrete inputs. -/
def tickB : String := "B"

/-- A gap-free raw row: all five columns observed, close `c`. -/
def mkRaw (t : String) (d : ℤ) (c : ℚ) : RawRow :=
  { ticker := t, date := d, Open := some c, High := some (c + 1),
    Low := some (c - 1), Close := some c, Volume := some 100 }

/-- 22 gap-free daily rows of one instrument, dates 0..21, close `d + 1`. -/
def exRows22 : List RawRow :=
  (List.range 22).map fun i => mkRaw tickA (i : ℤ) ((i : ℤ) + 1 : ℤ)

/-- The raw table holding `exRows22`. -/
def tbl22 : RawTable :=
  ⟨true, exRows22⟩

/-- `exRows22` with every raw record of timestamp greater than 20 deleted. -/
def tbl22trunc : RawTable :=
  ⟨true, exRows22.filter (fun r => r.date ≤ 20)⟩

/-- A processed row whose only distinguishing content is its date (enough for
split-ordering statements). -/
def qrow (d : ℤ) : LRow :=
  ⟨d, 0, 0, 0, 0, 0, 0, 0, 0, 0⟩

/-- The single group of `exRows22`. -/
def exG22 : List Row :=
  rowsOf exRows22 tickA

/-- The processed output of that group. -/
def exOut22 : List LRow :=
  pgRows exG22

/-- A filesystem about to run `process_data` for the first time on the
22-row table. -/
def exFS0 : FS :=
  ⟨true, tbl22, false, []⟩

/-- The filesystem after that first successful run. -/
def exFS1 : FS :=
  (process_data exFS0).1

/-- The rows the first run returns and persists. -/
def exOkRows : List (String × LRow) :=
  exFS1.processed

/-- A filesystem on which the processed output already exists. -/
def exSkipFS : FS :=
  ⟨true, tbl22, true, []⟩

/-- A processed two-instrument dataset in which instrument B shares
timestamp 4 with instrument A's last row. -/
def exSplitTied : List (String × LRow) :=
  [(tickA, qrow 1), (tickA, qrow 2), (tickA, qrow 3), (tickA, qrow 4),
    (tickB, qrow 4)]

/-- A processed two-instrument dataset with globally distinct timestamps. -/
def exSplitDistinct : List (String × LRow) :=
  [(tickA, qrow 1), (tickA, qrow 2), (tickA, qrow 3), (tickA, qrow 4),
    (tickB, qrow 5)]

/-- The training fold the split produces on `exSplitDistinct`. -/
def exTrD : List (String × LRow) :=
  [(tickA, qrow 1), (tickA, qrow 2), (tickA, qrow 3), (tickA, qrow 4)]

/-- The test fold the split produces on `exSplitDistinct`. -/
def exTeD : List (String × LRow) :=
  [(tickB, qrow 5)]

/-- Whether the validator returned its report rather than escaping with an
exception. -/
def exceptOk (e : Except String (List String)) : Bool :=
  match e with
  | .ok _ => true
  | .error _ => false

/-- A validator input lacking the target column (seven otherwise clean
rows). -/
def exVDFNoTarget : VDF :=
  ⟨false, List.replicate 7 ⟨some 1, none⟩⟩

/-- A validator input with the target column and seven clean rows. -/
def exVDFok : VDF :=
  ⟨true, (List.range 7).map fun i =>
    ⟨some ((i : ℤ) + 1 : ℤ), some (if i % 2 = 0 then 1 else 0)⟩⟩

/-- The labelled (not yet normalized) row of `exG22` at date 20 in the full
22-row run. -/
def exLR1 : LRow :=
  ⟨20, 21, 22, 20, 21, 100, 23 / 2, 1 / 19, 1 / 20, 1⟩

/-- The labelled row at date 20 after deleting every raw record later than
date 20: same features, different label (it became the final row). -/
def exLR2 : LRow :=
  ⟨20, 21, 22, 20, 21, 100, 23 / 2, 1 / 19, 1 / 20, 0⟩

/-- 20 gap-free rows of one instrument (dates 0..19): the raw input of the
first, full run of the incremental pipeline. -/
def exRaw20 : List RawRow :=
  (List.range 20).map fun i => mkRaw tickA (i : ℤ) ((i : ℤ) + 1 : ℤ)

/-- The two new trailing rows (dates 20 and 21) the raw input grew by before
the incremental run. -/
def exExtra2 : List RawRow :=
  [mkRaw tickA 20 21, mkRaw tickA 21 22]

/-- The 21 rows of `tbl22trunc` with the last two (dates 19 and 20)
swapped: a permutation of the same raw records in a different file order. -/
def exRowsPerm : List RawRow :=
  ((List.range 19).map fun i => mkRaw tickA (i : ℤ) ((i : ℤ) + 1 : ℤ)) ++
    [mkRaw tickA 20 21, mkRaw tickA 19 20]

/-
  Generic lemmas about the fold-based column minima and maxima.
-/

theorem foldl_min_le_init (xs : List ℚ) (a : ℚ) : xs.foldl min a ≤ a := by
  induction xs generalizing a with
  | nil => exact le_refl a
  | cons x xs ih => exact le_trans (ih (min a x)) (min_le_left a x)

theorem foldl_min_le_mem (xs : List ℚ) (a x : ℚ) (hx : x ∈ xs) :
    xs.foldl min a ≤ x := by
  induction xs generalizing a with
  | nil => cases hx
  | cons z zs ih =>
    rcases List.mem_cons.mp hx with h | h
    · subst h
      exact le_trans (foldl_min_le_init zs (min a x)) (min_le_right a x)
    · exact ih (min a z) h

theorem foldl_min_mem (xs : List ℚ) (a : ℚ) :
    xs.foldl min a = a ∨ xs.foldl min a ∈ xs := by
  induction xs generalizing a with
  | nil => exact Or.inl rfl
  | cons x xs ih =>
    rcases ih (min a x) with h | h
    · rcases min_cases a x with ⟨he, _⟩ | ⟨he, _⟩
      · exact Or.inl (by rw [List.foldl_cons, h, he])
      · exact Or.inr (by rw [List.foldl_cons, h, he]; exact List.mem_cons_self x xs)
    · exact Or.inr (List.mem_cons_of_mem x h)

theorem foldl_max_init_le (xs : List ℚ) (a : ℚ) : a ≤ xs.foldl max a := by
  induction xs generalizing a with
  | nil => exact le_refl a
  | cons x xs ih => exact le_trans (le_max_left a x) (ih (max a x))

theorem foldl_max_mem_le (xs : List ℚ) (a x : ℚ) (hx : x ∈ xs) :
    x ≤ xs.foldl max a := by
  induction xs generalizing a with
  | nil => cases hx
  | cons z zs ih =>
    rcases List.mem_cons.mp hx with h | h
    · subst h
      exact le_trans (le_max_right a x) (foldl_max_init_le zs (max a x))
    · exact ih (max a z) h

theorem foldl_max_mem (xs : List ℚ) (a : ℚ) :
    xs.foldl max a = a ∨ xs.foldl max a ∈ xs := by
  induction xs generalizing a with
  | nil => exact Or.inl rfl
  | cons x xs ih =>
    rcases ih (max a x) with h | h
    · rcases max_cases a x with ⟨he, _⟩ | ⟨he, _⟩
      · exact Or.inl (by rw [List.foldl_cons, h, he])
      · exact Or.inr (by rw [List.foldl_cons, h, he]; exact List.mem_cons_self x xs)
    · exact Or.inr (List.mem_cons_of_mem x h)

theorem listMin_mem (x : ℚ) (xs : List ℚ) : listMin (x :: xs) ∈ x :: xs := by
  rcases foldl_min_mem xs x with h | h
  · rw [listMin, h]; exact List.mem_cons_self x xs
  · rw [listMin]; exact List.mem_cons_of_mem x h

theorem listMax_mem (x : ℚ) (xs : List ℚ) : listMax (x :: xs) ∈ x :: xs := by
  rcases foldl_max_mem xs x with h | h
  · rw [listMax, h]; exact List.mem_cons_self x xs
  · rw [listMax]; exact List.mem_cons_of_mem x h

theorem listMin_le (l : List ℚ) (x : ℚ) (hx : x ∈ l) : listMin l ≤ x := by
  cases l with
  | nil => cases hx
  | cons z zs =>
    rcases List.mem_cons.mp hx with h | h
    · subst h; exact foldl_min_le_init zs x
    · exact foldl_min_le_mem zs z x h

theorem le_listMax (l : List ℚ) (x : ℚ) (hx : x ∈ l) : x ≤ listMax l := by
  cases l with
  | nil => cases hx
  | cons z zs =>
    rcases List.mem_cons.mp hx with h | h
    · subst h; exact foldl_max_init_le zs x
    · exact foldl_max_mem_le zs z x h

/-- A fold of `min` commutes with a map that distributes over `min`. -/
theorem foldl_min_map (f : ℚ → ℚ) (hf : ∀ a b, f (min a b) = min (f a) (f b))
    (xs : List ℚ) (a : ℚ) : (xs.map f).foldl min (f a) = f (xs.foldl min a) := by
  induction xs generalizing a with
  | nil => rfl
  | cons x xs ih => simpa [hf] using ih (min a x)

theorem foldl_max_map (f : ℚ → ℚ) (hf : ∀ a b, f (max a b) = max (f a) (f b))
    (xs : List ℚ) (a : ℚ) : (xs.map f).foldl max (f a) = f (xs.foldl max a) := by
  induction xs generalizing a with
  | nil => rfl
  | cons x xs ih => simpa [hf] using ih (max a x)

/-
  Facts about the min-max transform.
-/

theorem scaleVal_min_comm (mn mx a b : ℚ) (h : mn < mx) :
    scaleVal mn mx (min a b) = min (scaleVal mn mx a) (scaleVal mn mx b) := by
  unfold scaleVal
  rw [if_neg (ne_of_gt h)]
  rw [min_div_div_right (le_of_lt (sub_pos.mpr h)), min_sub_sub_right]

theorem scaleVal_max_comm (mn mx a b : ℚ) (h : mn < mx) :
    scaleVal mn mx (max a b) = max (scaleVal mn mx a) (scaleVal mn mx b) := by
  unfold scaleVal
  rw [if_neg (ne_of_gt h)]
  rw [max_div_div_right (le_of_lt (sub_pos.mpr h)), max_sub_sub_right]

theorem scaleVal_self_min (mn mx : ℚ) : scaleVal mn mx mn = 0 := by
  unfold scaleVal
  rw [sub_self, zero_div]

theorem scaleVal_self_max (mn mx : ℚ) (h : mn < mx) : scaleVal mn mx mx = 1 := by
  unfold scaleVal
  rw [if_neg (ne_of_gt h)]
  exact div_self (ne_of_gt (sub_pos.mpr h))

theorem listMin_map_scale (xs : List ℚ) (hne : xs ≠ []) (mn mx : ℚ)
    (h : mn < mx) :
    listMin (xs.map (scaleVal mn mx)) = scaleVal mn mx (listMin xs) := by
  cases xs with
  | nil => exact absurd rfl hne
  | cons z zs =>
    show (zs.map (scaleVal mn mx)).foldl min (scaleVal mn mx z)
      = scaleVal mn mx (zs.foldl min z)
    exact foldl_min_map (scaleVal mn mx) (fun a b => scaleVal_min_comm mn mx a b h) zs z

theorem listMax_map_scale (xs : List ℚ) (hne : xs ≠ []) (mn mx : ℚ)
    (h : mn < mx) :
    listMax (xs.map (scaleVal mn mx)) = scaleVal mn mx (listMax xs) := by
  cases xs with
  | nil => exact absurd rfl hne
  | cons z zs =>
    show (zs.map (scaleVal mn mx)).foldl max (scaleVal mn mx z)
      = scaleVal mn mx (zs.foldl max z)
    exact foldl_max_map (scaleVal mn mx) (fun a b => scaleVal_max_comm mn mx a b h) zs z

theorem listMin_le_listMax (xs : List ℚ) (hne : xs ≠ []) :
    listMin xs ≤ listMax xs := by
  cases xs with
  | nil => exact absurd rfl hne
  | cons z zs =>
    exact le_trans (listMin_le (z :: zs) z (List.mem_cons_self z zs))
      (le_listMax (z :: zs) z (List.mem_cons_self z zs))

/-
  Per-column view of the group normalization.
-/

theorem applyNormRow_get (st : NormState) (r : LRow) (c : Col) :
    (applyNormRow st r).get c = scaleVal (st.get c).1 (st.get c).2 (r.get c) := by
  cases c <;> rfl

theorem fitNorm_get (rows : List LRow) (c : Col) :
    (fitNorm rows).get c = (colMin rows c, colMax rows c) := by
  cases c <;> rfl

theorem normalizeGroup_col (rows : List LRow) (c : Col) :
    (normalizeGroup rows).map (fun r => r.get c)
      = (rows.map (fun r => r.get c)).map
          (scaleVal (colMin rows c) (colMax rows c)) := by
  unfold normalizeGroup applyNorm
  rw [List.map_map, List.map_map]
  apply List.map_congr_left
  intro r _
  simp only [Function.comp]
  rw [applyNormRow_get, fitNorm_get]

/-
  The label stage.
-/

theorem addLabel_length : ∀ l : List CleanRow, (addLabel l).length = l.length
  | [] => rfl
  | [_] => rfl
  | r :: s :: rest => by
    show (addLabel (s :: rest)).length + 1 = (s :: rest).length + 1
    rw [addLabel_length (s :: rest)]

theorem addLabel_map_stripY : ∀ l : List CleanRow, (addLabel l).map stripY = l
  | [] => rfl
  | [_] => rfl
  | r :: s :: rest => by
    show stripY (mkL r _) :: (addLabel (s :: rest)).map stripY = r :: s :: rest
    rw [addLabel_map_stripY (s :: rest)]
    rfl

theorem stripY_date (r : LRow) : (stripY r).date = r.date := rfl

theorem addLabel_map_date (l : List CleanRow) :
    (addLabel l).map (fun r => r.date) = l.map (fun r => r.date) := by
  have h1 : (addLabel l).map (fun r => r.date)
      = ((addLabel l).map stripY).map (fun r => r.date) := by
    rw [List.map_map]; rfl
  rw [h1, addLabel_map_stripY]

theorem addLabel_ne_nil (l : List CleanRow) (h : l ≠ []) : addLabel l ≠ [] := by
  intro hc
  have := addLabel_length l
  rw [hc] at this
  exact h (List.length_eq_zero.mp this.symm)

theorem addLabel_getLast_y : ∀ l : List CleanRow, l ≠ [] →
    ((addLabel l).getLast?).map LRow.y = some 0
  | [], h => absurd rfl h
  | [_], _ => rfl
  | r :: s :: rest, _ => by
    have ih := addLabel_getLast_y (s :: rest) (by simp)
    rcases hx : addLabel (s :: rest) with _ | ⟨x, xs⟩
    · exact absurd hx (addLabel_ne_nil (s :: rest) (by simp))
    · show ((mkL r _ :: addLabel (s :: rest)).getLast?).map LRow.y = some 0
      rw [hx, List.getLast?_cons_cons, ← hx]
      exact ih

theorem addLabel_getLast_date : ∀ l : List CleanRow, l ≠ [] →
    ((addLabel l).getLast?).map LRow.date
      = (l.getLast?).map CleanRow.date
  | [], h => absurd rfl h
  | [_], _ => rfl
  | r :: s :: rest, _ => by
    have ih := addLabel_getLast_date (s :: rest) (by simp)
    rcases hx : addLabel (s :: rest) with _ | ⟨x, xs⟩
    · exact absurd hx (addLabel_ne_nil (s :: rest) (by simp))
    · show ((mkL r _ :: addLabel (s :: rest)).getLast?).map LRow.date
        = ((r :: s :: rest).getLast?).map CleanRow.date
      rw [hx, List.getLast?_cons_cons, ← hx, List.getLast?_cons_cons]
      exact ih

theorem applyNormRow_y (st : NormState) (r : LRow) :
    (applyNormRow st r).y = r.y := rfl

theorem applyNormRow_date (st : NormState) (r : LRow) :
    (applyNormRow st r).date = r.date := rfl

theorem normalizeGroup_length (rows : List LRow) :
    (normalizeGroup rows).length = rows.length := by
  unfold normalizeGroup applyNorm
  exact List.length_map rows _

theorem normalizeGroup_map_date (rows : List LRow) :
    (normalizeGroup rows).map (fun r => r.date) = rows.map (fun r => r.date) := by
  unfold normalizeGroup applyNorm
  rw [List.map_map]
  rfl

theorem processGroup_eq_some (g : List Row) (out : List LRow)
    (h : processGroup g = some out) :
    cleaned g ≠ [] ∧ out = normalizeGroup (addLabel (cleaned g)) := by
  unfold processGroup at h
  by_cases hc : cleaned g = []
  · rw [if_pos hc] at h
    cases h
  · rw [if_neg hc] at h
    exact ⟨hc, (Option.some_inj.mp h).symm⟩

/-- C6 (confirmed).  For a full run, for every instrument group `process_data`
emits and every normalized column: if the column's observed minimum and
maximum over the group differ, the normalized column attains minimum exactly
0 and maximum exactly 1; if they coincide, every normalized value is 0. -/
theorem process_data_normalization_range (rs : List RawRow) (t : String)
    (c : Col) (out : List LRow)
    (h : processGroup (rowsOf rs t) = some out) :
    (colMin (addLabel (cleaned (rowsOf rs t))) c
        ≠ colMax (addLabel (cleaned (rowsOf rs t))) c →
      listMin (out.map (fun r => r.get c)) = 0 ∧
      listMax (out.map (fun r => r.get c)) = 1) ∧
    (colMin (addLabel (cleaned (rowsOf rs t))) c
        = colMax (addLabel (cleaned (rowsOf rs t))) c →
      ∀ r ∈ out, r.get c = 0) := by
  obtain ⟨hne, hout⟩ := processGroup_eq_some _ _ h
  set pre := addLabel (cleaned (rowsOf rs t)) with hpre
  have hpn : pre ≠ [] := addLabel_ne_nil _ hne
  have hxs : pre.map (fun r => r.get c) ≠ [] := by
    intro hc2
    exact hpn (List.map_eq_nil_iff.mp hc2)
  have hcol : out.map (fun r => r.get c)
      = (pre.map (fun r => r.get c)).map
          (scaleVal (colMin pre c) (colMax pre c)) := by
    rw [hout]
    exact normalizeGroup_col pre c
  constructor
  · intro hneq
    have hlt : colMin pre c < colMax pre c :=
      lt_of_le_of_ne (listMin_le_listMax _ hxs) hneq
    constructor
    · rw [hcol, listMin_map_scale _ hxs _ _ hlt]
      have hm : listMin (pre.map (fun r => r.get c)) = colMin pre c := rfl
      rw [hm, scaleVal_self_min]
    · rw [hcol, listMax_map_scale _ hxs _ _ hlt]
      have hm : listMax (pre.map (fun r => r.get c)) = colMax pre c := rfl
      rw [hm, scaleVal_self_max _ _ hlt]
  · intro heq r hr
    have hr2 : r.get c ∈ out.map (fun r => r.get c) :=
      List.mem_map_of_mem _ hr
    rw [hcol] at hr2
    obtain ⟨x, hx, hxe⟩ := List.mem_map.mp hr2
    have h1 : colMin pre c ≤ x := listMin_le _ x hx
    have h2 : x ≤ colMax pre c := le_listMax _ x hx
    have hx2 : x = colMin pre c := le_antisymm (heq ▸ h2) h1
    rw [← hxe, hx2, scaleVal_self_min]

/-- Witness for C6 at the 22-row input and the Close column (whose observed
range is non-degenerate, so the first branch applies). -/
theorem process_data_normalization_range_witness :
    processGroup (rowsOf exRows22 tickA) = some exOut22 ∧
    ((colMin (addLabel (cleaned (rowsOf exRows22 tickA))) Col.Close
        ≠ colMax (addLabel (cleaned (rowsOf exRows22 tickA))) Col.Close →
      listMin (exOut22.map (fun r => r.get Col.Close)) = 0 ∧
      listMax (exOut22.map (fun r => r.get Col.Close)) = 1) ∧
    (colMin (addLabel (cleaned (rowsOf exRows22 tickA))) Col.Close
        = colMax (addLabel (cleaned (rowsOf exRows22 tickA))) Col.Close →
      ∀ r ∈ exOut22, r.get Col.Close = 0)) :=
  ⟨by decide, process_data_normalization_range exRows22 tickA Col.Close exOut22 (by decide)⟩

/-- C10 (confirmed).  A group that is non-empty after cleaning is not
skipped, the label stage drops no row (the int-cast label is never NaN, so
the source's second `dropna` removes nothing), and the group's last row is
retained in the output with label 0, whatever its prices. -/
theorem processGroup_keeps_final_row (g : List Row) (h : cleaned g ≠ []) :
    processGroup g = some (pgRows g) ∧
    (pgRows g).length = (cleaned g).length ∧
    ((pgRows g).getLast?).map LRow.y = some 0 ∧
    ((pgRows g).getLast?).map LRow.date
      = ((cleaned g).getLast?).map CleanRow.date := by
  have hpg : processGroup g = some (normalizeGroup (addLabel (cleaned g))) := by
    unfold processGroup
    rw [if_neg h]
  have hrows : pgRows g = normalizeGroup (addLabel (cleaned g)) := by
    unfold pgRows
    rw [hpg]
    rfl
  refine ⟨by rw [hpg, hrows], ?len, ?lasty, ?lastd⟩
  case len =>
    rw [hrows, normalizeGroup_length, addLabel_length]
  case lasty =>
    rw [hrows]
    unfold normalizeGroup applyNorm
    rw [List.getLast?_map]
    have h1 := addLabel_getLast_y (cleaned g) h
    rcases hg : (addLabel (cleaned g)).getLast? with _ | r
    · rw [hg] at h1
      cases h1
    · rw [hg] at h1
      rw [Option.map_map]
      simpa [Function.comp, applyNormRow_y] using h1
  case lastd =>
    rw [hrows]
    unfold normalizeGroup applyNorm
    rw [List.getLast?_map]
    have h1 := addLabel_getLast_date (cleaned g) h
    rw [Option.map_map]
    rw [← h1]
    rcases hg : (addLabel (cleaned g)).getLast? with _ | r
    · rfl
    · simp [applyNormRow_date]

/-- Witness for C10 at the 22-row group. -/
theorem processGroup_keeps_final_row_witness :
    cleaned exG22 ≠ [] ∧
    (processGroup exG22 = some (pgRows exG22) ∧
    (pgRows exG22).length = (cleaned exG22).length ∧
    ((pgRows exG22).getLast?).map LRow.y = some 0 ∧
    ((pgRows exG22).getLast?).map LRow.date
      = ((cleaned exG22).getLast?).map CleanRow.date) :=
  ⟨by decide, processGroup_keeps_final_row exG22 (by decide)⟩

/-- C2 (code_bug evidence).  On 21 gap-free rows of one instrument (dates
0..20, strictly rising close), the processed output for the instrument keeps
its final raw date 20 with label 0: the source casts the label to int before
its `dropna`, so the final row, whose label the spec and the source's own
inline comment say must be dropped, is instead retained with an imputed 0. -/
theorem process_data_final_row_not_dropped :
    (outFor (process_data_core tbl22trunc) tickA).map (fun r => (r.date, r.y))
      = [((19 : ℤ), (1 : ℤ)), ((20 : ℤ), (0 : ℤ))] := by
  decide

/-- C7 (confirmed).  With the raw file present and the processed file already
existing, `process_data` is a no-op reporting "already processed": it leaves
the filesystem (hence the persisted rows) unchanged and appends nothing.
Consequently a second run after any successful first run appends zero rows. -/
theorem process_data_already_processed_noop
    (fs fs0 fs1 : FS) (rows : List (String × LRow))
    (h1 : fs.rawExists = true) (h2 : fs.processedExists = true)
    (h3 : process_data fs0 = (fs1, ProcResult.ok rows)) :
    process_data fs = (fs, ProcResult.alreadyProcessed) ∧
    process_data fs1 = (fs1, ProcResult.alreadyProcessed) := by
  have hskip : ∀ g : FS, g.rawExists = true → g.processedExists = true →
      process_data g = (g, ProcResult.alreadyProcessed) := by
    intro g hg1 hg2
    unfold process_data
    rw [hg1, hg2]
    simp
  refine ⟨hskip fs h1 h2, ?second⟩
  case second =>
    unfold process_data at h3
    by_cases hr : fs0.rawExists = false
    · rw [if_pos hr] at h3
      simp at h3
    · rw [if_neg hr] at h3
      by_cases hp : fs0.processedExists = true
      · rw [if_pos hp] at h3
        simp at h3
      · rw [if_neg hp] at h3
        rcases hcore : process_data_core fs0.raw with _ | _ | _ | _ | rows0 <;>
          rw [hcore] at h3
        · simp at h3
        · simp at h3
        · simp at h3
        · simp at h3
        · have hfs1 : fs1 = { fs0 with processedExists := true, processed := rows0 } :=
            ((Prod.mk.injEq _ _ _ _).mp h3).1.symm
          have hb : fs0.rawExists = true := by
            revert hr
            cases fs0.rawExists <;> simp
          exact hskip fs1 (by rw [hfs1]; exact hb) (by rw [hfs1])

instance : IsTotal (String × LRow) (fun a b => a.2.date ≤ b.2.date) :=
  ⟨fun a b => le_total a.2.date b.2.date⟩

instance : IsTrans (String × LRow) (fun a b => a.2.date ≤ b.2.date) :=
  ⟨fun _ _ _ hab hbc => le_trans hab hbc⟩

/-- C3 counterexample.  On a processed two-instrument dataset where
instrument B's single row shares timestamp 4 with instrument A's last row,
the produced split has a training row and a test row at the same timestamp:
the global bound is not strict. -/
theorem time_series_split_not_globally_strict :
    time_series_split exSplitTied
      = some ([(tickA, qrow 1), (tickA, qrow 2), (tickA, qrow 3),
          (tickA, qrow 4)], [(tickB, qrow 4)]) ∧
    ¬ (∀ a ∈ [(tickA, qrow 1), (tickA, qrow 2), (tickA, qrow 3),
          (tickA, qrow 4)], ∀ b ∈ [(tickB, qrow 4)],
        a.2.date < b.2.date) := by
  decide

/-- C3 (corrected).  On a processed dataset with at most one row per
(instrument, timestamp), every produced split satisfies: globally every
training timestamp is at most every test timestamp, and per instrument every
training timestamp is strictly below every test timestamp.  (Global
strictness fails when two instruments share the boundary timestamp, see the
counterexample.) -/
theorem time_series_split_causal (l : List (String × LRow))
    (hnd : List.Pairwise
      (fun a b : String × LRow => a.1 = b.1 → a.2.date ≠ b.2.date) l)
    (tr te : List (String × LRow))
    (h : time_series_split l = some (tr, te)) :
    (∀ a ∈ tr, ∀ b ∈ te, a.2.date ≤ b.2.date) ∧
    (∀ a ∈ tr, ∀ b ∈ te, a.1 = b.1 → a.2.date < b.2.date) := by
  unfold time_series_split at h
  by_cases hn : (sortByDate l).length < 5
  · rw [if_pos hn] at h
    cases h
  · rw [if_neg hn] at h
    obtain ⟨h1, h2⟩ := (Prod.mk.injEq _ _ _ _).mp (Option.some_inj.mp h)
    have hsorted : List.Sorted
        (fun a b : String × LRow => a.2.date ≤ b.2.date) (sortByDate l) :=
      List.sorted_insertionSort _ l
    have hperm : List.Perm (sortByDate l) l := List.perm_insertionSort _ l
    have hnd2 : List.Pairwise
        (fun a b : String × LRow => a.1 = b.1 → a.2.date ≠ b.2.date)
        (sortByDate l) :=
      (hperm.pairwise_iff (fun hab hba => (hab hba.symm).symm)).mpr hnd
    have hsplit : sortByDate l = tr ++ te := by
      rw [← h1, ← h2, List.take_append_drop]
    rw [hsplit] at hsorted hnd2
    have hle := (List.pairwise_append.mp hsorted).2.2
    have hne := (List.pairwise_append.mp hnd2).2.2
    exact ⟨hle, fun a ha b hb ht =>
      lt_of_le_of_ne (hle a ha b hb) (hne a ha b hb ht)⟩

/-
  Stage lemmas: every stage preserves the date column (feature engineering
  and forward-fill exactly, dropna as a sublist), and the first three stages
  map prefixes of the group to prefixes of their output.
-/

theorem featRowAt_date (hist : List Row) (r : Row) :
    (featRowAt hist r).date = r.date := rfl

theorem featureEngineerGo_map_date : ∀ (hist l : List Row),
    (featureEngineerGo hist l).map (fun r => r.date)
      = l.map (fun r => r.date)
  | _, [] => rfl
  | hist, r :: rest => by
    show r.date :: (featureEngineerGo (r :: hist) rest).map (fun r => r.date)
      = r.date :: rest.map (fun r => r.date)
    rw [featureEngineerGo_map_date (r :: hist) rest]

theorem ffillRow_date (st : FState) (r : FeatRow) :
    (ffillRow st r).date = r.date := rfl

theorem ffillGo_map_date : ∀ (st : FState) (l : List FeatRow),
    (ffillGo st l).map (fun r => r.date) = l.map (fun r => r.date)
  | _, [] => rfl
  | st, r :: rest => by
    show (ffillRow st r).date ::
        (ffillGo (stateOf (ffillRow st r)) rest).map (fun r => r.date)
      = r.date :: rest.map (fun r => r.date)
    rw [ffillRow_date, ffillGo_map_date _ rest]

theorem toClean_date (r : FeatRow) (c : CleanRow) (h : toClean r = some c) :
    c.date = r.date := by
  unfold toClean at h
  split at h
  · cases h
    rfl
  · cases h

theorem dropna_map_date_sublist : ∀ l : List FeatRow,
    List.Sublist ((dropna l).map (fun r => r.date))
      (l.map (fun r => r.date))
  | [] => List.Sublist.refl _
  | r :: rest => by
    unfold dropna
    rw [List.filterMap_cons]
    cases htc : toClean r with
    | none =>
      exact List.Sublist.cons _ (dropna_map_date_sublist rest)
    | some c =>
      rw [List.map_cons, List.map_cons, toClean_date r c htc]
      exact List.Sublist.cons₂ _ (dropna_map_date_sublist rest)

theorem cleaned_map_date_sublist (g : List Row) :
    List.Sublist ((cleaned g).map (fun r => r.date))
      (g.map (fun r => r.date)) := by
  unfold cleaned ffill featureEngineer
  have h := dropna_map_date_sublist (ffillGo fstate0 (featureEngineerGo [] g))
  rw [ffillGo_map_date, featureEngineerGo_map_date] at h
  exact h

theorem featureEngineerGo_take : ∀ (hist l : List Row) (k : ℕ),
    featureEngineerGo hist (l.take k) = (featureEngineerGo hist l).take k
  | _, [], k => by simp [featureEngineerGo]
  | _, _ :: _, 0 => rfl
  | hist, r :: rest, k + 1 => by
    show featRowAt hist r :: featureEngineerGo (r :: hist) (rest.take k)
      = (featRowAt hist r :: featureEngineerGo (r :: hist) rest).take (k + 1)
    rw [List.take_succ_cons, featureEngineerGo_take (r :: hist) rest k]

theorem ffillGo_take : ∀ (st : FState) (l : List FeatRow) (k : ℕ),
    ffillGo st (l.take k) = (ffillGo st l).take k
  | _, [], k => by simp [ffillGo]
  | _, _ :: _, 0 => rfl
  | st, r :: rest, k + 1 => by
    show ffillRow st r :: ffillGo (stateOf (ffillRow st r)) (rest.take k)
      = (ffillRow st r :: ffillGo (stateOf (ffillRow st r)) rest).take (k + 1)
    rw [List.take_succ_cons, ffillGo_take _ rest k]

theorem filterMap_take_prefix {α β : Type} (f : α → Option β) :
    ∀ (l : List α) (k : ℕ),
      ∃ m, (l.take k).filterMap f = (l.filterMap f).take m
  | [], k => ⟨0, by simp⟩
  | _ :: _, 0 => ⟨0, by simp⟩
  | r :: rest, k + 1 => by
    obtain ⟨m, hm⟩ := filterMap_take_prefix f rest k
    cases hf : f r with
    | none =>
      exact ⟨m, by
        rw [List.take_succ_cons, List.filterMap_cons_none hf,
          List.filterMap_cons_none hf, hm]⟩
    | some b =>
      exact ⟨m + 1, by
        rw [List.take_succ_cons, List.filterMap_cons_some hf,
          List.filterMap_cons_some hf, hm, List.take_succ_cons]⟩

theorem cleaned_take_prefix (g : List Row) (k : ℕ) :
    ∃ m, cleaned (g.take k) = (cleaned g).take m := by
  unfold cleaned ffill dropna featureEngineer
  rw [featureEngineerGo_take, ffillGo_take]
  exact filterMap_take_prefix toClean _ k

theorem sorted_filter_le_eq_take (g : List Row) (t : ℤ)
    (hs : List.Pairwise (fun a b : Row => a.date < b.date) g) :
    ∃ k, g.filter (fun r => r.date ≤ t) = g.take k := by
  induction g with
  | nil => exact ⟨0, rfl⟩
  | cons r rest ih =>
    obtain ⟨hr, hrest⟩ := List.pairwise_cons.mp hs
    by_cases hle : r.date ≤ t
    · obtain ⟨k, hk⟩ := ih hrest
      refine ⟨k + 1, ?step⟩
      case step =>
        rw [List.filter_cons_of_pos (by simpa using hle), hk,
          List.take_succ_cons]
    · refine ⟨0, ?stop⟩
      case stop =>
        rw [List.filter_cons_of_neg (by simpa using hle), List.take_zero]
        rw [List.filter_eq_nil_iff]
        intro x hx
        have : t < x.date := lt_trans (lt_of_not_le hle) (hr x hx)
        simpa using not_le.mpr this

theorem pairwise_lt_date_inj : ∀ (l : List CleanRow),
    List.Pairwise (fun a b : CleanRow => a.date < b.date) l →
    ∀ a b : CleanRow, a ∈ l → b ∈ l → a.date = b.date → a = b
  | [], _, a, b, ha, _, _ => absurd ha (List.not_mem_nil a)
  | x :: xs, h, a, b, ha, hb, hd => by
    obtain ⟨hx, hxs⟩ := List.pairwise_cons.mp h
    rcases List.mem_cons.mp ha with ha1 | ha1 <;>
      rcases List.mem_cons.mp hb with hb1 | hb1
    · rw [ha1, hb1]
    · subst ha1
      exact absurd hd (ne_of_lt (hx b hb1))
    · subst hb1
      exact absurd hd.symm (ne_of_lt (hx a ha1))
    · exact pairwise_lt_date_inj xs hxs a b ha1 hb1 hd

/-- C1 counterexample.  On the 22-row table, deleting the raw records with
timestamp greater than 20 and reprocessing changes the (normalized) Close
value of the output row at timestamp 20 from 1/2 to 1: the min-max scaler is
fitted on the whole series including rows after time *t*, so the published
column values at time *t* are not causal. -/
theorem process_data_not_causal_after_normalization :
    ((outFor (process_data_core tbl22) tickA).find?
        (fun r => r.date = 20)).map LRow.Close = some (1 / 2) ∧
    ((outFor (process_data_core tbl22trunc) tickA).find?
        (fun r => r.date = 20)).map LRow.Close = some 1 ∧
    ((outFor (process_data_core tbl22) tickA).find?
        (fun r => r.date = 20)).map LRow.Close
      ≠ ((outFor (process_data_core tbl22trunc) tickA).find?
        (fun r => r.date = 20)).map LRow.Close := by
  decide

/-- C1 (corrected).  Causality does hold for every column except `y` up to,
but not including, normalization: on a date-sorted instrument group, the
labelled row at timestamp *t* keeps every non-`y` column unchanged when all
raw rows with timestamp beyond any cutoff are deleted and the group is
recomputed.  (After the per-group min-max normalization the property fails,
see the counterexample.) -/
theorem features_causal_before_normalization
    (g : List Row) (t : ℤ)
    (hs : List.Pairwise (fun a b : Row => a.date < b.date) g)
    (r1 r2 : LRow)
    (h1 : r1 ∈ addLabel (cleaned g))
    (h2 : r2 ∈ addLabel (cleaned (g.filter (fun r => r.date ≤ t))))
    (hd : r1.date = r2.date) :
    stripY r1 = stripY r2 := by
  obtain ⟨k, hk⟩ := sorted_filter_le_eq_take g t hs
  rw [hk] at h2
  obtain ⟨m, hm⟩ := cleaned_take_prefix g k
  rw [hm] at h2
  have hs1 : stripY r1 ∈ cleaned g := by
    rw [← addLabel_map_stripY (cleaned g)]
    exact List.mem_map_of_mem _ h1
  have hs2 : stripY r2 ∈ (cleaned g).take m := by
    rw [← addLabel_map_stripY ((cleaned g).take m)]
    exact List.mem_map_of_mem _ h2
  have hs2m : stripY r2 ∈ cleaned g := List.mem_of_mem_take hs2
  have hmap : List.Pairwise (fun a b : ℤ => a < b)
      ((cleaned g).map (fun r => r.date)) :=
    List.Pairwise.sublist (cleaned_map_date_sublist g)
      ((List.pairwise_map).mpr hs)
  have hps : List.Pairwise (fun a b : CleanRow => a.date < b.date)
      (cleaned g) := (List.pairwise_map).mp hmap
  exact pairwise_lt_date_inj (cleaned g) hps _ _ hs1 hs2m
    (by rw [stripY_date, stripY_date, hd])

/-- Witness for C1's amended theorem: in the 22-row group with cutoff 20, the
labelled rows at date 20 of the full and the truncated runs agree on every
non-`y` column (their labels differ: 1 became 0 when date 20 turned into the
final row). -/
theorem features_causal_before_normalization_witness :
    List.Pairwise (fun a b : Row => a.date < b.date) exG22 ∧
    exLR1 ∈ addLabel (cleaned exG22) ∧
    exLR2 ∈ addLabel (cleaned (exG22.filter (fun r => r.date ≤ 20))) ∧
    exLR1.date = exLR2.date ∧
    stripY exLR1 = stripY exLR2 :=
  ⟨by decide, by decide, by decide, rfl,
    features_causal_before_normalization exG22 20 (by decide) exLR1 exLR2
      (by decide) (by decide) rfl⟩

/-- C5 counterexample.  The same 21 raw records of one instrument in a
different file order produce a different processed output: `process_data`
never sorts by timestamp, it computes rolling and lagged features in input
order. -/
theorem process_data_depends_on_input_order :
    List.Perm exRowsPerm tbl22trunc.rows ∧
    outFor (process_data_core ⟨true, exRowsPerm⟩) tickA
      ≠ outFor (process_data_core tbl22trunc) tickA := by
  decide

/-- C5 (corrected).  `process_data` does not sort a group before computing
features; it preserves the input row order: the output dates are a sublist of
the input dates (so the output is date-sorted exactly when the input already
is, and permuting the input can change the output — see the
counterexample). -/
theorem processGroup_preserves_input_order (g : List Row) :
    List.Sublist ((pgRows g).map (fun r => r.date))
      (g.map (fun r => r.date)) ∧
    (List.Pairwise (fun a b : ℤ => a ≤ b) (g.map (fun r => r.date)) →
      List.Pairwise (fun a b : ℤ => a ≤ b)
        ((pgRows g).map (fun r => r.date))) := by
  have hdates : (pgRows g).map (fun r => r.date)
      = (cleaned g).map (fun r => r.date) := by
    unfold pgRows processGroup
    by_cases hc : cleaned g = []
    · rw [if_pos hc, hc]
      rfl
    · rw [if_neg hc]
      show (normalizeGroup (addLabel (cleaned g))).map (fun r => r.date)
        = (cleaned g).map (fun r => r.date)
      rw [normalizeGroup_map_date, addLabel_map_date]
  constructor
  · rw [hdates]
    exact cleaned_map_date_sublist g
  · intro hsorted
    rw [hdates]
    exact List.Pairwise.sublist (cleaned_map_date_sublist g) hsorted

/-- Witness for C5's amended theorem at the sorted 22-row group. -/
theorem processGroup_preserves_input_order_witness :
    List.Pairwise (fun a b : ℤ => a ≤ b) (exG22.map (fun r => r.date)) ∧
    List.Sublist ((pgRows exG22).map (fun r => r.date))
      (exG22.map (fun r => r.date)) ∧
    List.Pairwise (fun a b : ℤ => a ≤ b)
      ((pgRows exG22).map (fun r => r.date)) :=
  ⟨by decide, (processGroup_preserves_input_order exG22).1,
    (processGroup_preserves_input_order exG22).2 (by decide)⟩

/-- Witness for C3's amended theorem on a concrete two-instrument dataset
with globally distinct timestamps. -/
theorem time_series_split_causal_witness :
    List.Pairwise
      (fun a b : String × LRow => a.1 = b.1 → a.2.date ≠ b.2.date)
      exSplitDistinct ∧
    time_series_split exSplitDistinct = some (exTrD, exTeD) ∧
    ((∀ a ∈ exTrD, ∀ b ∈ exTeD, a.2.date ≤ b.2.date) ∧
     (∀ a ∈ exTrD, ∀ b ∈ exTeD, a.1 = b.1 → a.2.date < b.2.date)) :=
  ⟨by decide, by decide,
    time_series_split_causal exSplitDistinct (by decide) exTrD exTeD (by decide)⟩

/-- C8 counterexample.  On a DataFrame without the target column the
validator records the missing-target finding but then raises `KeyError` at
`y = df_clean[target_col]`: the report escapes as an exception instead of
being returned. -/
theorem validate_pipeline_raises_on_missing_target :
    validate_data_pipeline exVDFNoTarget = Except.error msgKeyError := by
  rfl

/-- C8 (corrected).  The validator never raises provided the target column is
present and at least 6 rows survive cleaning; otherwise it raises (`KeyError`
on a missing target, sklearn's `ValueError` below 6 clean rows). -/
theorem validate_pipeline_no_throw (df : VDF)
    (h1 : df.hasTarget = true) (h2 : 6 ≤ (vclean df).length) :
    exceptOk (validate_data_pipeline df) = true := by
  unfold validate_data_pipeline
  rw [h1]
  simp [Nat.not_lt.mpr h2, exceptOk]

/-- Witness for C8's amended theorem on a concrete 7-row frame with target. -/
theorem validate_pipeline_no_throw_witness :
    exVDFok.hasTarget = true ∧ 6 ≤ (vclean exVDFok).length ∧
    exceptOk (validate_data_pipeline exVDFok) = true :=
  ⟨rfl, by decide, validate_pipeline_no_throw exVDFok rfl (by decide)⟩

/-
  Group independence: the rows one instrument contributes to a full run
  depend only on that instrument's raw rows, in their file order.
-/

theorem tickersOf_nodup (rs : List RawRow) : (tickersOf rs).Nodup :=
  (List.perm_insertionSort _ _).nodup_iff.mpr
    (List.nodup_dedup (rs.map RawRow.ticker))

theorem mem_tickersOf (rs : List RawRow) (t : String) :
    t ∈ tickersOf rs ↔ t ∈ rs.map RawRow.ticker := by
  unfold tickersOf
  rw [List.mem_insertionSort, List.mem_dedup]

theorem filter_flatten_groups (ts : List String)
    (f : String → Option (List LRow)) (t : String) (hnd : ts.Nodup) :
    (((ts.filterMap fun s =>
          (f s).map fun out => out.map fun r => (s, r)).flatten.filter
        (fun p => p.1 = t)).map Prod.snd)
      = if t ∈ ts then (f t).getD [] else [] := by
  induction ts with
  | nil => simp
  | cons s rest ih =>
    obtain ⟨hs, hrest⟩ := List.nodup_cons.mp hnd
    specialize ih hrest
    have hmem : s ≠ t → ((t ∈ s :: rest) ↔ (t ∈ rest)) := by
      intro hst
      constructor
      · intro h
        rcases List.mem_cons.mp h with h1 | h1
        · exact absurd h1.symm hst
        · exact h1
      · exact List.mem_cons_of_mem s
    cases hf : f s with
    | none =>
      rw [List.filterMap_cons_none (by rw [hf]; rfl), ih]
      by_cases hst : s = t
      · subst hst
        rw [if_neg hs, if_pos (List.mem_cons_self s rest), hf]
        rfl
      · by_cases hm : t ∈ rest
        · rw [if_pos hm, if_pos ((hmem hst).mpr hm)]
        · rw [if_neg hm, if_neg (fun hc => hm ((hmem hst).mp hc))]
    | some out =>
      rw [List.filterMap_cons_some (by rw [hf]; rfl)]
      rw [List.flatten_cons, List.filter_append, List.map_append, ih]
      by_cases hst : s = t
      · subst hst
        rw [if_neg hs, if_pos (List.mem_cons_self s rest), hf]
        have hkeep : ((out.map fun r => (s, r)).filter fun p => p.1 = s)
            = out.map fun r => (s, r) := by
          rw [List.filter_eq_self]
          intro p hp
          obtain ⟨r, _, hr⟩ := List.mem_map.mp hp
          rw [← hr]
          simp
        rw [hkeep, List.append_nil, List.map_map]
        show out.map (Prod.snd ∘ fun r => (s, r)) = (some out).getD []
        rw [Option.getD_some]
        simp [Function.comp]
      · have hdrop : ((out.map fun r => (s, r)).filter fun p => p.1 = t)
            = [] := by
          rw [List.filter_eq_nil_iff]
          intro p hp
          obtain ⟨r, _, hr⟩ := List.mem_map.mp hp
          rw [← hr]
          simpa using hst
        rw [hdrop]
        by_cases hm : t ∈ rest
        · rw [if_pos hm, if_pos ((hmem hst).mpr hm)]
          rfl
        · rw [if_neg hm, if_neg (fun hc => hm ((hmem hst).mp hc))]
          rfl

theorem outFor_core (rs : List RawRow) (t : String) :
    outFor (process_data_core ⟨true, rs⟩) t
      = if t ∈ tickersOf rs then groupOut rs t else [] := by
  unfold process_data_core
  rw [if_neg (by simp)]
  by_cases hg : ((tickersOf rs).filterMap fun s =>
      (processGroup (rowsOf rs s)).map fun out =>
        out.map fun r => (s, r)) = []
  · rw [if_pos hg]
    have hall := List.filterMap_eq_nil_iff.mp hg
    show ([] : List LRow) = _
    by_cases hm : t ∈ tickersOf rs
    · have := hall t hm
      have hnone : processGroup (rowsOf rs t) = none := by
        rcases hp : processGroup (rowsOf rs t) with _ | o
        · rfl
        · rw [hp] at this
          cases this
      rw [if_pos hm]
      unfold groupOut
      rw [hnone]
      rfl
    · rw [if_neg hm]
  · rw [if_neg hg]
    show ((((tickersOf rs).filterMap fun s =>
        (processGroup (rowsOf rs s)).map fun out =>
          out.map fun r => (s, r)).flatten.filter
        (fun p => p.1 = t)).map Prod.snd) = _
    rw [filter_flatten_groups (tickersOf rs)
      (fun s => processGroup (rowsOf rs s)) t (tickersOf_nodup rs)]
    rfl

/-- C9 (confirmed).  Running `process_data` on a raw dataset holding only
instrument A's rows yields, for A, exactly the rows the combined dataset
yields for A: groups are formed by ticker with file order preserved inside
each group, and each group is processed in isolation. -/
theorem process_data_no_cross_instrument_leakage (rs : List RawRow)
    (t : String) :
    outFor (process_data_core ⟨true, rs.filter (fun r => r.ticker = t)⟩) t
      = outFor (process_data_core ⟨true, rs⟩) t := by
  rw [outFor_core, outFor_core]
  have hrows : rowsOf (rs.filter (fun r => r.ticker = t)) t = rowsOf rs t := by
    unfold rowsOf
    rw [List.filter_filter]
    congr 1
    apply List.filter_congr
    intro r _
    simp
  have hmem : t ∈ tickersOf (rs.filter (fun r => r.ticker = t))
      ↔ t ∈ tickersOf rs := by
    rw [mem_tickersOf, mem_tickersOf]
    constructor
    · intro h
      obtain ⟨r, hr, he⟩ := List.mem_map.mp h
      exact List.mem_map.mpr ⟨r, List.mem_of_mem_filter hr, he⟩
    · intro h
      obtain ⟨r, hr, he⟩ := List.mem_map.mp h
      refine List.mem_map.mpr ⟨r, List.mem_filter.mpr ⟨hr, by simpa using he⟩, he⟩
  by_cases hm : t ∈ tickersOf rs
  · rw [if_pos hm, if_pos (hmem.mpr hm)]
    unfold groupOut
    rw [hrows]
  · rw [if_neg hm, if_neg (fun hc => hm (hmem.mp hc))]

/-
  On gap-free positive-close groups the cleaning pipeline keeps exactly the
  rows from position 19 on: the definedness profile of every column is
  tracked through feature engineering, forward-fill and dropna.
-/

theorem validRowB_unpack (r : Row) (h : validRowB r = true) :
    r.Open.isSome = true ∧ r.High.isSome = true ∧ r.Low.isSome = true ∧
    r.Volume.isSome = true ∧ ∃ c, r.Close = some c ∧ 0 < c := by
  unfold validRowB at h
  rcases hc : r.Close with _ | c
  · rw [hc] at h
    simp at h
  · rw [hc] at h
    simp only [Bool.and_eq_true] at h
    exact ⟨h.1.1.1.1, h.1.1.1.2, h.1.1.2, h.1.2, c, rfl,
      of_decide_eq_true h.2⟩

theorem smaAt_isSome (hist : List Row) (r : Row)
    (hh : ∀ x ∈ hist, validRowB x = true) (hr : validRowB r = true) :
    (smaAt hist r).isSome = true ↔ 19 ≤ hist.length := by
  unfold smaAt
  by_cases h19 : 19 ≤ hist.length
  · rw [if_pos h19]
    have hall : (smaWin hist r).all Option.isSome = true := by
      rw [List.all_eq_true]
      intro c hc
      rcases List.mem_cons.mp hc with h1 | h1
      · obtain ⟨_, _, _, _, cc, hcc, _⟩ := validRowB_unpack r hr
        rw [h1, hcc]
        rfl
      · obtain ⟨x, hx, hxe⟩ := List.mem_map.mp h1
        obtain ⟨_, _, _, _, cc, hcc, _⟩ :=
          validRowB_unpack x (hh x (List.mem_of_mem_take hx))
        rw [← hxe, hcc]
        rfl
    rw [if_pos hall]
    simpa using h19
  · rw [if_neg h19]
    simpa using h19

theorem lagReturnAt_isSome (hist : List Row)
    (hh : ∀ x ∈ hist, validRowB x = true) :
    (lagReturnAt hist).isSome = true ↔ 2 ≤ hist.length := by
  rcases hist with _ | ⟨p1, _ | ⟨p2, tail⟩⟩
  · simp [lagReturnAt]
  · simp [lagReturnAt]
  · obtain ⟨_, _, _, _, c2, hc2, hpos⟩ :=
      validRowB_unpack p2 (hh p2 (by simp))
    obtain ⟨_, _, _, _, c1, hc1, _⟩ :=
      validRowB_unpack p1 (hh p1 (by simp))
    show (pctChange p2.Close p1.Close).isSome = true
      ↔ 2 ≤ (p1 :: p2 :: tail).length
    unfold pctChange
    rw [hc2, hc1]
    show ((if c2 = 0 then (none : Cell)
        else some ((c1 - c2) / c2))).isSome = true ↔ _
    rw [if_neg (ne_of_gt hpos)]
    exact iff_of_true rfl (by simp only [List.length_cons]; omega)

theorem logReturnAt_isSome (hist : List Row) (r : Row)
    (hh : ∀ x ∈ hist, validRowB x = true) (hr : validRowB r = true) :
    (logReturnAt hist r).isSome = true ↔ 1 ≤ hist.length := by
  rcases hist with _ | ⟨p1, tail⟩
  · simp [logReturnAt]
  · obtain ⟨_, _, _, _, c, hc, hcpos⟩ := validRowB_unpack r hr
    obtain ⟨_, _, _, _, c1, hc1, hc1pos⟩ :=
      validRowB_unpack p1 (hh p1 (by simp))
    show ((cdiv r.Close p1.Close).bind logModel).isSome = true
      ↔ 1 ≤ (p1 :: tail).length
    unfold cdiv
    rw [hc, hc1]
    show (((if c1 = 0 then (none : Cell)
        else some (c / c1))).bind logModel).isSome = true ↔ _
    rw [if_neg (ne_of_gt hc1pos)]
    show (logModel (c / c1)).isSome = true ↔ _
    unfold logModel
    rw [if_pos (div_pos hcpos hc1pos)]
    exact iff_of_true rfl (by simp only [List.length_cons]; omega)

theorem featRowAt_valid (hist : List Row) (r : Row)
    (hh : ∀ x ∈ hist, validRowB x = true) (hr : validRowB r = true) :
    featValid hist.length (featRowAt hist r) := by
  obtain ⟨ho, hhi, hlo, hvo, c, hc, _⟩ := validRowB_unpack r hr
  refine ⟨ho, hhi, hlo, ?close, hvo, ?sma, ?lag, ?log⟩
  case close =>
    show r.Close.isSome = true
    rw [hc]
    rfl
  case sma => exact smaAt_isSome hist r hh hr
  case lag => exact lagReturnAt_isSome hist hh
  case log => exact logReturnAt_isSome hist r hh hr

theorem feat_graded : ∀ (hist g : List Row),
    (∀ x ∈ hist, validRowB x = true) → (∀ x ∈ g, validRowB x = true) →
    FeatGraded hist.length (featureEngineerGo hist g)
  | _, [], _, _ => trivial
  | hist, r :: rest, hh, hg => by
    refine ⟨featRowAt_valid hist r hh (hg r (List.mem_cons_self r rest)),
      ?tail⟩
    case tail =>
      have hh2 : ∀ x ∈ r :: hist, validRowB x = true := by
        intro x hx
        rcases List.mem_cons.mp hx with h1 | h1
        · rw [h1]
          exact hg r (List.mem_cons_self r rest)
        · exact hh x h1
      exact feat_graded (r :: hist) rest hh2
        (fun x hx => hg x (List.mem_cons_of_mem r hx))

theorem cellOr_isSome (a b : Cell) :
    (cellOr a b).isSome = (a.isSome || b.isSome) := by
  cases a <;> rfl

theorem ffill_graded : ∀ (l : List FeatRow) (st : FState) (p : ℕ),
    stValid p st → FeatGraded p l → FeatGraded p (ffillGo st l)
  | [], _, _, _, _ => trivial
  | r :: rest, st, p, hst, hgr => by
    obtain ⟨hr, hrest⟩ := hgr
    obtain ⟨so, shi, slo, scl, svo, ssm, sla, slg⟩ := hst
    obtain ⟨ro, rhi, rlo, rcl, rvo, rsm, rla, rlg⟩ := hr
    have hfo : (ffillRow st r).Open.isSome = true := by
      show (cellOr r.Open st.Open).isSome = true
      rw [cellOr_isSome, ro]
      rfl
    have hfhi : (ffillRow st r).High.isSome = true := by
      show (cellOr r.High st.High).isSome = true
      rw [cellOr_isSome, rhi]
      rfl
    have hflo : (ffillRow st r).Low.isSome = true := by
      show (cellOr r.Low st.Low).isSome = true
      rw [cellOr_isSome, rlo]
      rfl
    have hfcl : (ffillRow st r).Close.isSome = true := by
      show (cellOr r.Close st.Close).isSome = true
      rw [cellOr_isSome, rcl]
      rfl
    have hfvo : (ffillRow st r).Volume.isSome = true := by
      show (cellOr r.Volume st.Volume).isSome = true
      rw [cellOr_isSome, rvo]
      rfl
    have hfsm : (ffillRow st r).SMA_20.isSome = true ↔ 19 ≤ p := by
      show (cellOr r.SMA_20 st.SMA_20).isSome = true ↔ _
      rw [cellOr_isSome, Bool.or_eq_true]
      constructor
      · intro h
        rcases h with h | h
        · exact rsm.mp h
        · have := ssm.mp h
          omega
      · intro h
        exact Or.inl (rsm.mpr h)
    have hfla : (ffillRow st r).Lag_Return_1.isSome = true ↔ 2 ≤ p := by
      show (cellOr r.Lag_Return_1 st.Lag_Return_1).isSome = true ↔ _
      rw [cellOr_isSome, Bool.or_eq_true]
      constructor
      · intro h
        rcases h with h | h
        · exact rla.mp h
        · have := sla.mp h
          omega
      · intro h
        exact Or.inl (rla.mpr h)
    have hflg : (ffillRow st r).Log_Return.isSome = true ↔ 1 ≤ p := by
      show (cellOr r.Log_Return st.Log_Return).isSome = true ↔ _
      rw [cellOr_isSome, Bool.or_eq_true]
      constructor
      · intro h
        rcases h with h | h
        · exact rlg.mp h
        · have := slg.mp h
          omega
      · intro h
        exact Or.inl (rlg.mpr h)
    refine ⟨⟨hfo, hfhi, hflo, hfcl, hfvo, hfsm, hfla, hflg⟩, ?rest2⟩
    case rest2 =>
      refine ffill_graded rest (stateOf (ffillRow st r)) (p + 1) ?stv hrest
      case stv =>
        refine ⟨iff_of_true hfo (by omega), iff_of_true hfhi (by omega),
          iff_of_true hflo (by omega), iff_of_true hfcl (by omega),
          iff_of_true hfvo (by omega), hfsm.trans (by omega),
          hfla.trans (by omega), hflg.trans (by omega)⟩

theorem toClean_none_of_sma (r : FeatRow) (h : r.SMA_20 = none) :
    toClean r = none := by
  rcases r with ⟨d, o, hi, lo, cl, vo, sm, la, lg⟩
  obtain rfl : sm = none := h
  cases o <;> cases hi <;> cases lo <;> cases cl <;> cases vo <;> rfl

theorem dropna_graded : ∀ (l : List FeatRow) (p : ℕ), FeatGraded p l →
    (dropna l).map (fun r => r.date)
      = (l.map (fun r => r.date)).drop (19 - p)
  | [], _, _ => by simp [dropna]
  | r :: rest, p, hgr => by
    obtain ⟨hr, hrest⟩ := hgr
    have ih := dropna_graded rest (p + 1) hrest
    by_cases hp : 19 ≤ p
    · obtain ⟨ho, hhi, hlo, hcl, hvo, hsm, hla, hlg⟩ := hr
      obtain ⟨o, hO⟩ := Option.isSome_iff_exists.mp ho
      obtain ⟨hi, hHi⟩ := Option.isSome_iff_exists.mp hhi
      obtain ⟨lo, hLo⟩ := Option.isSome_iff_exists.mp hlo
      obtain ⟨cl, hCl⟩ := Option.isSome_iff_exists.mp hcl
      obtain ⟨vo, hVo⟩ := Option.isSome_iff_exists.mp hvo
      obtain ⟨sm, hSm⟩ := Option.isSome_iff_exists.mp (hsm.mpr hp)
      obtain ⟨la, hLa⟩ := Option.isSome_iff_exists.mp (hla.mpr (by omega))
      obtain ⟨lg, hLg⟩ := Option.isSome_iff_exists.mp (hlg.mpr (by omega))
      have htc : toClean r = some ⟨r.date, o, hi, lo, cl, vo, sm, la, lg⟩ := by
        unfold toClean
        rw [hO, hHi, hLo, hCl, hVo, hSm, hLa, hLg]
      unfold dropna
      rw [List.filterMap_cons_some htc]
      have h0 : 19 - p = 0 := by omega
      have h0s : 19 - (p + 1) = 0 := by omega
      rw [h0s] at ih
      rw [List.map_cons, List.map_cons, h0, List.drop_zero]
      unfold dropna at ih
      rw [ih, List.drop_zero]
    · have hsm_none : r.SMA_20 = none := by
        rcases hs : r.SMA_20 with _ | v
        · rfl
        · exact absurd (hr.2.2.2.2.2.1.mp (by rw [hs]; rfl)) hp
      unfold dropna
      rw [List.filterMap_cons_none (toClean_none_of_sma r hsm_none)]
      unfold dropna at ih
      rw [ih, List.map_cons,
        show 19 - p = (19 - (p + 1)) + 1 from by omega, List.drop_succ_cons]

theorem cleaned_dates_of_valid (g : List Row)
    (hv : ∀ r ∈ g, validRowB r = true) :
    (cleaned g).map (fun r => r.date)
      = (g.map (fun r => r.date)).drop 19 := by
  unfold cleaned ffill featureEngineer
  have hA : FeatGraded 0 (featureEngineerGo [] g) :=
    feat_graded [] g (by intro x hx; cases hx) hv
  have hst0 : stValid 0 fstate0 := by
    refine ⟨?a, ?b, ?c, ?d, ?e, ?f, ?g2, ?h2⟩ <;>
      exact iff_of_false (by simp [fstate0]) (by omega)
  have hB := ffill_graded _ fstate0 0 hst0 hA
  have hC := dropna_graded _ 0 hB
  rw [hC, ffillGo_map_date, featureEngineerGo_map_date]

/-
  The spec-modelled incremental controller on a single-instrument dataset.
-/

theorem dedup_const (t : String) : ∀ (l : List String), l ≠ [] →
    (∀ x ∈ l, x = t) → l.dedup = [t]
  | [], h, _ => absurd rfl h
  | x :: rest, _, hall => by
    have hx : x = t := hall x (List.mem_cons_self x rest)
    subst hx
    cases rest with
    | nil => simp
    | cons y ys =>
      have hy : y = x :=
        hall y (List.mem_cons_of_mem _ (List.mem_cons_self y ys))
      have hmem : x ∈ y :: ys := by
        rw [hy]
        exact List.mem_cons_self x ys
      rw [List.dedup_cons_of_mem hmem]
      exact dedup_const x (y :: ys) (by simp)
        (fun z hz => hall z (List.mem_cons_of_mem _ hz))

theorem tickersOf_const (rs : List RawRow) (t : String) (hne : rs ≠ [])
    (hall : ∀ r ∈ rs, r.ticker = t) : tickersOf rs = [t] := by
  unfold tickersOf
  have hd : (rs.map RawRow.ticker).dedup = [t] := by
    apply dedup_const
    · intro hc
      exact hne (List.map_eq_nil_iff.mp hc)
    · intro x hx
      obtain ⟨r, hr, he⟩ := List.mem_map.mp hx
      rw [← he]
      exact hall r hr
  rw [hd]
  rfl

theorem rowsOf_all (rs : List RawRow) (t : String)
    (hall : ∀ r ∈ rs, r.ticker = t) :
    rowsOf rs t = rs.map RawRow.toRow := by
  unfold rowsOf
  rw [List.filter_eq_self.mpr (fun r hr => by simpa using hall r hr)]

theorem applyNorm_map_date (st : NormState) (l : List LRow) :
    (applyNorm st l).map (fun r => r.date) = l.map (fun r => r.date) := by
  unfold applyNorm
  rw [List.map_map]
  rfl

theorem incGroup_fresh (g : List Row) (h : cleaned g ≠ []) :
    incGroup [] none g
      = some (applyNorm (fitNorm (addLabel (cleaned g)))
            (addLabel (cleaned g)),
          fitNorm (addLabel (cleaned g))) := by
  unfold incGroup
  rw [if_neg h]
  show some ((applyNorm (fitNorm (addLabel (cleaned g)))
        (addLabel (cleaned g))).filter
        (fun r => !(([] : List ℤ).contains r.date)),
      fitNorm (addLabel (cleaned g))) = _
  rw [show (applyNorm (fitNorm (addLabel (cleaned g)))
        (addLabel (cleaned g))).filter
        (fun r => !(([] : List ℤ).contains r.date))
      = applyNorm (fitNorm (addLabel (cleaned g))) (addLabel (cleaned g))
    from List.filter_eq_self.mpr (fun a _ => rfl)]

theorem incGroup_stored (existing : List ℤ) (st : NormState) (g : List Row)
    (h : cleaned g ≠ []) :
    incGroup existing (some st) g
      = some ((applyNorm st (addLabel (cleaned g))).filter
            (fun r => !existing.contains r.date), st) := by
  unfold incGroup
  rw [if_neg h]

theorem cleaned_ne_nil_of_valid (g : List Row)
    (hv : ∀ r ∈ g, validRowB r = true) (hlen : 20 ≤ g.length) :
    cleaned g ≠ [] := by
  intro hc
  have hd := cleaned_dates_of_valid g hv
  rw [hc] at hd
  have hlen2 := congrArg List.length hd
  simp [List.length_drop, List.length_map] at hlen2
  omega

theorem contains_true_of_mem {x : ℤ} {l : List ℤ} (h : x ∈ l) :
    l.contains x = true :=
  List.elem_eq_true_of_mem h

theorem contains_false_of_not_mem {x : ℤ} {l : List ℤ} (h : ¬ x ∈ l) :
    l.contains x = false := by
  rcases hE : l.contains x
  · rfl
  · exact absurd (List.mem_of_elem_eq_true hE) h

theorem pdi_single (st : IncState) (tbl : RawTable) (t : String)
    (ht : tickersOf tbl.rows = [t]) (d : List LRow) (ns : NormState)
    (hg : incGroup (datesFor st.processed t) (lookupScaler st.scalers t)
        (rowsOf tbl.rows t) = some (d, ns)) :
    process_data_incremental st tbl
      = (⟨st.processed ++ d.map (fun r => (t, r)),
          st.scalers ++ (if lookupScaler st.scalers t = none
            then [(t, ns)] else [])⟩,
        d.map (fun r => (t, r))) := by
  unfold process_data_incremental
  rw [ht]
  rw [List.filterMap_cons_some (by rw [hg]; rfl)]
  by_cases hl : lookupScaler st.scalers t = none <;>
    simp [List.flatMap_cons, List.flatMap_nil, List.filterMap_cons, hl]

/-- C4 (spec-modelled).  After a full run on a gap-free, date-sorted,
positive-close single-instrument table of at least 20 rows, an incremental
run on the same table extended by `k` trailing rows returns exactly the `k`
new rows (all `k` survive missing-data resolution here since they sit past
the warm-up window), appends them after the previously persisted rows, which
stay byte-identical, and strictly grows the persisted row count. -/
theorem incremental_run_appends_exactly_new_rows
    (t : String) (raw extra : List RawRow)
    (hall : ∀ r ∈ raw ++ extra, r.ticker = t ∧ validRowB r.toRow = true)
    (hsorted : List.Pairwise (fun a b : RawRow => a.date < b.date)
      (raw ++ extra))
    (hn : 20 ≤ raw.length) (hk : 1 ≤ extra.length) :
    (incRun2 raw extra).1.processed
      = (incRun1 raw).1.processed ++ (incRun2 raw extra).2 ∧
    (incRun2 raw extra).2.length = extra.length ∧
    (incRun1 raw).1.processed.length
      < (incRun2 raw extra).1.processed.length := by
  have hallT : ∀ r ∈ raw ++ extra, r.ticker = t := fun r hr => (hall r hr).1
  have hallV : ∀ r ∈ raw ++ extra, validRowB r.toRow = true :=
    fun r hr => (hall r hr).2
  have hrawne : raw ≠ [] := by
    intro hc
    rw [hc] at hn
    simp at hn
  have hrawT : ∀ r ∈ raw, r.ticker = t :=
    fun r hr => hallT r (List.mem_append_left _ hr)
  have hrawV : ∀ r ∈ raw, validRowB r.toRow = true :=
    fun r hr => hallV r (List.mem_append_left _ hr)
  have hg1v : ∀ r ∈ raw.map RawRow.toRow, validRowB r = true := by
    intro r hr
    obtain ⟨x, hx, he⟩ := List.mem_map.mp hr
    rw [← he]
    exact hrawV x hx
  have hggv : ∀ r ∈ (raw ++ extra).map RawRow.toRow, validRowB r = true := by
    intro r hr
    obtain ⟨x, hx, he⟩ := List.mem_map.mp hr
    rw [← he]
    exact hallV x hx
  have hc1 : cleaned (raw.map RawRow.toRow) ≠ [] :=
    cleaned_ne_nil_of_valid _ hg1v (by rw [List.length_map]; exact hn)
  have hcg : cleaned ((raw ++ extra).map RawRow.toRow) ≠ [] :=
    cleaned_ne_nil_of_valid _ hggv
      (by rw [List.length_map, List.length_append]; omega)
  -- dates of the per-run outputs
  have hdate_g1 : (raw.map RawRow.toRow).map (fun r => r.date)
      = raw.map RawRow.date := by
    rw [List.map_map]
    exact List.map_congr_left (fun r _ => rfl)
  have hdate_gg : ((raw ++ extra).map RawRow.toRow).map (fun r => r.date)
      = raw.map RawRow.date ++ extra.map RawRow.date := by
    rw [List.map_map]
    rw [show ((fun r : Row => r.date) ∘ RawRow.toRow) = RawRow.date
      from rfl]
    exact List.map_append RawRow.date raw extra
  -- run 1
  have ht1 : tickersOf raw = [t] := tickersOf_const raw t hrawne hrawT
  have hrows1 : rowsOf raw t = raw.map RawRow.toRow := rowsOf_all raw t hrawT
  have hinc1 : incGroup (datesFor (⟨[], []⟩ : IncState).processed t)
      (lookupScaler (⟨[], []⟩ : IncState).scalers t) (rowsOf raw t)
      = some (applyNorm (fitNorm (addLabel (cleaned (raw.map RawRow.toRow))))
            (addLabel (cleaned (raw.map RawRow.toRow))),
          fitNorm (addLabel (cleaned (raw.map RawRow.toRow)))) := by
    rw [hrows1]
    exact incGroup_fresh _ hc1
  have hrun1 : incRun1 raw
      = (⟨(applyNorm (fitNorm (addLabel (cleaned (raw.map RawRow.toRow))))
              (addLabel (cleaned (raw.map RawRow.toRow)))).map
            (fun r => (t, r)),
          [(t, fitNorm (addLabel (cleaned (raw.map RawRow.toRow))))]⟩,
        (applyNorm (fitNorm (addLabel (cleaned (raw.map RawRow.toRow))))
            (addLabel (cleaned (raw.map RawRow.toRow)))).map
          (fun r => (t, r))) := by
    unfold incRun1
    rw [pdi_single _ _ t ht1 _ _ hinc1]
    simp [show lookupScaler ([] : List (String × NormState)) t = none
      from rfl]
  -- abbreviations via plain equalities
  have hD1 : (applyNorm (fitNorm (addLabel (cleaned (raw.map RawRow.toRow))))
        (addLabel (cleaned (raw.map RawRow.toRow)))).map (fun r => r.date)
      = (raw.map RawRow.date).drop 19 := by
    rw [applyNorm_map_date, addLabel_map_date, cleaned_dates_of_valid _ hg1v,
      hdate_g1]
  -- run 2 ingredients
  have htg : tickersOf (raw ++ extra) = [t] :=
    tickersOf_const _ t (by
      intro hc
      exact hrawne (List.append_eq_nil.mp hc).1) hallT
  have hrowsg : rowsOf (raw ++ extra) t = (raw ++ extra).map RawRow.toRow :=
    rowsOf_all _ t hallT
  have hdf : datesFor (incRun1 raw).1.processed t
      = (applyNorm (fitNorm (addLabel (cleaned (raw.map RawRow.toRow))))
          (addLabel (cleaned (raw.map RawRow.toRow)))).map
        (fun r => r.date) := by
    rw [hrun1]
    unfold datesFor
    rw [List.filter_eq_self.mpr (by
      intro p hp
      obtain ⟨r, _, he⟩ := List.mem_map.mp hp
      rw [← he]
      simp)]
    rw [List.map_map]
    rfl
  have hls : lookupScaler (incRun1 raw).1.scalers t
      = some (fitNorm (addLabel (cleaned (raw.map RawRow.toRow)))) := by
    rw [hrun1]
    unfold lookupScaler
    rw [List.find?_cons_of_pos _ (by simp)]
    rfl
  have hinc2 : incGroup (datesFor (incRun1 raw).1.processed t)
      (lookupScaler (incRun1 raw).1.scalers t) (rowsOf (raw ++ extra) t)
      = some ((applyNorm (fitNorm (addLabel (cleaned (raw.map RawRow.toRow))))
            (addLabel (cleaned ((raw ++ extra).map RawRow.toRow)))).filter
          (fun r => !((raw.map RawRow.date).drop 19).contains r.date),
        fitNorm (addLabel (cleaned (raw.map RawRow.toRow)))) := by
    rw [hdf, hls, hrowsg, hD1]
    exact incGroup_stored _ _ _ hcg
  have hrun2 : incRun2 raw extra
      = (⟨(incRun1 raw).1.processed
            ++ ((applyNorm (fitNorm (addLabel (cleaned (raw.map RawRow.toRow))))
                  (addLabel (cleaned ((raw ++ extra).map RawRow.toRow)))).filter
                (fun r => !((raw.map RawRow.date).drop 19).contains r.date)).map
              (fun r => (t, r)),
          (incRun1 raw).1.scalers ++ []⟩,
        ((applyNorm (fitNorm (addLabel (cleaned (raw.map RawRow.toRow))))
              (addLabel (cleaned ((raw ++ extra).map RawRow.toRow)))).filter
            (fun r => !((raw.map RawRow.date).drop 19).contains r.date)).map
          (fun r => (t, r))) := by
    unfold incRun2
    rw [pdi_single _ _ t htg _ _ hinc2]
    rw [if_neg (by rw [hls]; simp)]
  -- the filtered output is exactly the k new rows
  have hout2dates : (applyNorm
        (fitNorm (addLabel (cleaned (raw.map RawRow.toRow))))
        (addLabel (cleaned ((raw ++ extra).map RawRow.toRow)))).map
      (fun r => r.date)
      = (raw.map RawRow.date).drop 19 ++ extra.map RawRow.date := by
    rw [applyNorm_map_date, addLabel_map_date, cleaned_dates_of_valid _ hggv,
      hdate_gg, List.drop_append_of_le_length (by
        rw [List.length_map]
        omega)]
  have hcross : ∀ x ∈ (raw.map RawRow.date).drop 19,
      ∀ y ∈ extra.map RawRow.date, x < y := by
    have hmap : List.Pairwise (fun a b : ℤ => a < b)
        ((raw ++ extra).map RawRow.date) := (List.pairwise_map).mpr hsorted
    rw [List.map_append] at hmap
    have hcross0 := (List.pairwise_append.mp hmap).2.2
    intro x hx y hy
    exact hcross0 x (List.mem_of_mem_drop hx) y hy
  have hdlen : ((applyNorm (fitNorm (addLabel (cleaned (raw.map RawRow.toRow))))
        (addLabel (cleaned ((raw ++ extra).map RawRow.toRow)))).filter
      (fun r => !((raw.map RawRow.date).drop 19).contains r.date)).length
      = extra.length := by
    set out2 := applyNorm (fitNorm (addLabel (cleaned (raw.map RawRow.toRow))))
      (addLabel (cleaned ((raw ++ extra).map RawRow.toRow))) with hout2def
    set D1 := (raw.map RawRow.date).drop 19 with hD1def
    have htake_dates : (out2.take D1.length).map (fun r => r.date) = D1 := by
      rw [List.map_take, hout2dates, List.take_left]
    have hdrop_dates : (out2.drop D1.length).map (fun r => r.date)
        = extra.map RawRow.date := by
      rw [List.map_drop, hout2dates, List.drop_left]
    have hfa : (out2.take D1.length).filter
        (fun r => !D1.contains r.date) = [] := by
      rw [List.filter_eq_nil_iff]
      intro a ha
      have had0 : a.date ∈ (out2.take D1.length).map (fun r => r.date) :=
        List.mem_map_of_mem _ ha
      rw [htake_dates] at had0
      show ¬ ((!D1.contains a.date) = true)
      rw [contains_true_of_mem had0]
      decide
    have hfb : (out2.drop D1.length).filter
        (fun r => !D1.contains r.date) = out2.drop D1.length := by
      rw [List.filter_eq_self]
      intro a ha
      have had0 : a.date ∈ (out2.drop D1.length).map (fun r => r.date) :=
        List.mem_map_of_mem _ ha
      rw [hdrop_dates] at had0
      have hnot : ¬ (a.date ∈ D1) :=
        fun hc => lt_irrefl _ (hcross _ hc _ had0)
      show ((!D1.contains a.date) = true)
      rw [contains_false_of_not_mem hnot]
      decide
    have hsplit2 : out2.filter (fun r => !D1.contains r.date)
        = out2.drop D1.length := by
      conv_lhs => rw [← List.take_append_drop D1.length out2]
      rw [List.filter_append, hfa, hfb, List.nil_append]
    rw [hsplit2]
    have hlen2 := congrArg List.length hdrop_dates
    rw [List.length_map, List.length_map] at hlen2
    exact hlen2
  refine ⟨rfl, ?len, ?grow⟩
  case len =>
    rw [hrun2]
    show (((applyNorm (fitNorm (addLabel (cleaned (raw.map RawRow.toRow))))
          (addLabel (cleaned ((raw ++ extra).map RawRow.toRow)))).filter
        (fun r => !((raw.map RawRow.date).drop 19).contains r.date)).map
      (fun r => (t, r))).length = extra.length
    rw [List.length_map, hdlen]
  case grow =>
    rw [hrun2]
    show (incRun1 raw).1.processed.length
      < ((incRun1 raw).1.processed
          ++ ((applyNorm (fitNorm (addLabel (cleaned (raw.map RawRow.toRow))))
                (addLabel (cleaned ((raw ++ extra).map RawRow.toRow)))).filter
              (fun r => !((raw.map RawRow.date).drop 19).contains r.date)).map
            (fun r => (t, r))).length
    rw [List.length_append, List.length_map, hdlen]
    omega

/-- Witness for C4 on a concrete 20-row table extended by 2 rows: the
incremental run returns exactly 2 rows, appends them, and the persisted count
grows. -/
theorem incremental_run_appends_exactly_new_rows_witness :
    (∀ r ∈ exRaw20 ++ exExtra2, r.ticker = tickA ∧ validRowB r.toRow = true) ∧
    List.Pairwise (fun a b : RawRow => a.date < b.date)
      (exRaw20 ++ exExtra2) ∧
    20 ≤ exRaw20.length ∧ 1 ≤ exExtra2.length ∧
    ((incRun2 exRaw20 exExtra2).1.processed
        = (incRun1 exRaw20).1.processed ++ (incRun2 exRaw20 exExtra2).2 ∧
     (incRun2 exRaw20 exExtra2).2.length = exExtra2.length ∧
     (incRun1 exRaw20).1.processed.length
        < (incRun2 exRaw20 exExtra2).1.processed.length) :=
  ⟨by decide, by decide, by decide, by decide,
    incremental_run_appends_exactly_new_rows tickA exRaw20 exExtra2
      (by decide) (by decide) (by decide) (by decide)⟩

/-- Witness for C7: a skip on an existing processed file, and the second run
after a concrete successful 22-row first run. -/
theorem process_data_already_processed_noop_witness :
    exSkipFS.rawExists = true ∧ exSkipFS.processedExists = true ∧
    process_data exFS0 = (exFS1, ProcResult.ok exOkRows) ∧
    (process_data exSkipFS = (exSkipFS, ProcResult.alreadyProcessed) ∧
     process_data exFS1 = (exFS1, ProcResult.alreadyProcessed)) :=
  ⟨rfl, rfl, by decide,
    process_data_already_processed_noop exSkipFS exFS0 exFS1 exOkRows rfl rfl (by decide)⟩

end AiTrader
